import Mathlib

/-!
Shallow embedding of the simulation kernel of the `amber` digital-hardware
simulator (Rust), together with proofs checking its specification.

Conventions of the embedding:
* Rust machine integers (`u8`, `u16`, `usize`) become `Nat`; every counter in
  the kernel is bounded by the number of pins on the board, far below any
  overflow, and `u8` subtraction in `WireStateCounter::remove` is modelled by
  truncated `Nat` subtraction (the Rust code would panic on underflow; all
  theorems about `remove` are stated on states where the removed count is
  positive, where the two semantics agree).
* `f64` simulation times become `ℚ`.  `PingEvent`'s ordering uses
  `f64::total_cmp`, which on the non-`NaN`, non-negative-zero values produced
  by the kernel coincides with the ordering of the rationals.
* Fallible code (Rust `panic!`, out-of-bounds indexing, `assert!`) is
  modelled with `Option`: `none` is a panic.
* Channels, threads and file I/O are not modelled; a message sent to a
  component is recorded in a returned `Notification` list, and bytes written
  to the VCD file are returned as structured line lists.
-/

namespace Amber

/-- `PinState` from `src/pins.rs`: the six-valued pin logic. -/
inductive PinState where
  | Z
  | Low
  | High
  | WeakLow
  | WeakHigh
  | Error
  deriving DecidableEq, Repr

/-- `PinState::read` from `src/pins.rs`: weak states project to strong ones. -/
def PinState.read : PinState → PinState
  | .Z => .Z
  | .Low => .Low
  | .WeakLow => .Low
  | .High => .High
  | .WeakHigh => .High
  | .Error => .Error

/-- `WireStateCounter` from `src/board.rs`: drive counts of one wire. -/
structure WireStateCounter where
  low : Nat
  high : Nat
  weak_low : Nat
  weak_high : Nat
  deriving DecidableEq, Repr

/-- `WireStateCounter::add` from `src/board.rs`.  `Error` counts as one `low`
and one `high`; `Z` contributes nothing. -/
def WireStateCounter.add (c : WireStateCounter) (pin : PinState) : WireStateCounter :=
  match pin with
  | .Low => { c with low := c.low + 1 }
  | .High => { c with high := c.high + 1 }
  | .WeakLow => { c with weak_low := c.weak_low + 1 }
  | .WeakHigh => { c with weak_high := c.weak_high + 1 }
  | .Z => c
  | .Error => { c with low := c.low + 1, high := c.high + 1 }

/-- `WireStateCounter::remove` from `src/board.rs` (Rust `u8` subtraction;
see the header comment on underflow). -/
def WireStateCounter.remove (c : WireStateCounter) (pin : PinState) : WireStateCounter :=
  match pin with
  | .Low => { c with low := c.low - 1 }
  | .High => { c with high := c.high - 1 }
  | .WeakLow => { c with weak_low := c.weak_low - 1 }
  | .WeakHigh => { c with weak_high := c.weak_high - 1 }
  | .Z => c
  | .Error => { c with low := c.low - 1, high := c.high - 1 }

/-- `WireStateCounter::read` from `src/board.rs`: the resolution rule, with
the match arms in source order. -/
def WireStateCounter.read (c : WireStateCounter) : PinState :=
  match c.low, c.high, c.weak_low, c.weak_high with
  | 0, 0, 0, 0 => .Z
  | 0, 0, 0, _ => .WeakHigh
  | 0, 0, _, 0 => .WeakLow
  | 0, 0, _, _ => .Error
  | 0, _, _, _ => .High
  | _, 0, _, _ => .Low
  | _, _, _, _ => .Error

/-- Sum of the four counts of a `WireStateCounter`. -/
def WireStateCounter.total (c : WireStateCounter) : Nat :=
  c.low + c.high + c.weak_low + c.weak_high

/-- `PinVec` from `src/pins.rs`: a packed vector of pin states.  The derived
Rust `PartialEq` is structural, exactly like the derived `DecidableEq` here. -/
inductive PinVec where
  | SinglePin (state : PinState)
  | SmallLogical (size : Nat) (bits : Nat)
  | Repeated (size : Nat) (state : PinState)
  deriving DecidableEq, Repr

/-- `PinVec::iter` from `src/pins.rs`, materialised as the list of the yielded
states (the iterator walks bit positions from `len - 1` down to `0`). -/
def PinVec.toList : PinVec → List PinState
  | .SinglePin s => [s]
  | .SmallLogical size bits =>
      (List.range size).reverse.map fun i => if bits.testBit i then .High else .Low
  | .Repeated size s => List.replicate size s

/-- `VcdTreeSignal` from `src/vcd.rs`: a leaf signal of a VCD tree.
`old_state` is the previous value, `new_state` the current one. -/
structure VcdTreeSignal where
  size : Nat
  id : Option String
  old_state : PinVec
  new_state : PinVec
  deriving DecidableEq, Repr

/-- `VcdTreeSignal::update` from `src/vcd.rs`:
`self.old_state = mem::replace(&mut self.new_state, state)`, then it returns
`self.old_state != self.new_state`. -/
def VcdTreeSignal.update (s : VcdTreeSignal) (state : PinVec) : VcdTreeSignal × Bool :=
  let s' : VcdTreeSignal := { s with old_state := s.new_state, new_state := state }
  (s', s'.old_state != s'.new_state)

/-!  ### Ping events and the event heap

`PingEvent(ComponentId, f64)` from `src/board.rs` orders events by
`f64::total_cmp` on the time component (ascending).  The events live in a
`std::collections::BinaryHeap`, which is a *max*-heap: `peek`/`pop` return a
greatest element under that ordering, i.e. an event with the **largest**
time.  We model the heap's abstract state as a list sorted by time in
descending order: `push` inserts in order (ties keep insertion order, which
fixes the tie-breaking that Rust leaves unspecified), `peek` is `head?` and
`pop` drops the head. -/

/-- `PingEvent` from `src/board.rs`. -/
structure PingEvent where
  cid : Nat
  time : ℚ
  deriving DecidableEq, Repr

/-- `BinaryHeap::push` on the abstract (sorted-descending) heap state. -/
def heapPush : List PingEvent → PingEvent → List PingEvent
  | [], e => [e]
  | x :: xs, e => if x.time < e.time then e :: x :: xs else x :: heapPush xs e

/-!  ### The board

`Board` from `src/board.rs`, restricted to the state the wire engine, the
event queue and the scheduler read and write.  Threads, channels and the
components' internal state are I/O and are not modelled; of a
`ThreadedComponentData` only its `is_changed` flag is state the board
manipulates, so `threaded_components` is the list of those flags, and of the
threadless component list only its length matters to the board's bounds
checks, kept as `threadless_count`. -/

/-- `Pin` from `src/board.rs`. -/
structure Pin where
  id : Nat
  component : Option Nat
  wire : Option Nat
  out_state : PinState
  deriving DecidableEq, Repr

/-- `Wire` from `src/board.rs`. -/
structure Wire where
  counter : WireStateCounter
  pins : List Nat
  deriving DecidableEq, Repr

/-- `Wire::read` from `src/board.rs`. -/
def Wire.read (w : Wire) : PinState := w.counter.read

/-- `CommonComponentData` from `src/board.rs`. -/
structure CommonComponentData where
  index : Nat
  is_threaded : Bool
  pins : List Nat
  deriving DecidableEq, Repr

/-- The kernel-visible state of `Board` from `src/board.rs`. -/
structure Board where
  pins : List Pin
  wires : List Wire
  common_component_data : List CommonComponentData
  /-- `threaded_components_changed`: indices of threaded components with a
  pending input change, drained by `toggle_clock` to send `Step`. -/
  threaded_changed : List Nat
  /-- `is_changed` flag of each entry of `threaded_components`. -/
  threaded_components : List Bool
  /-- Length of the `threadless_components` vector. -/
  threadless_count : Nat
  /-- The `events` binary heap, in the sorted-descending model. -/
  events : List PingEvent
  deriving DecidableEq, Repr

/-- A `Message::PinChange`-style delivery of a state to a pin of a component
(either a channel send for a threaded component or a direct
`ThreadlessComponent::set_pin` call). -/
structure Notification where
  component : Nat
  pin : Nat
  state : PinState
  deriving DecidableEq, Repr

/-- `Board::update_pin_output` from `src/board.rs`.  Returns the old state
and attached wire of the pin, plus the updated board; `none` is the Rust
panic on an out-of-range pin index. -/
def Board.update_pin_output (b : Board) (index : Nat) (state : PinState) :
    Option (PinState × Option Nat × Board) :=
  match b.pins.get? index with
  | none => none
  | some pin =>
      some (pin.out_state, pin.wire,
        { b with pins := b.pins.set index { pin with out_state := state } })

/-- `Board::update_wire` from `src/board.rs`: reads the wire's resolved value,
updates the counters only when the pin state actually changed, and reads the
resolved value again. -/
def Board.update_wire (b : Board) (wire_index : Nat) (old_state new_state : PinState) :
    Option (PinState × PinState × Board) :=
  match b.wires.get? wire_index with
  | none => none
  | some wire =>
      let old_out_state := wire.read
      let wire' : Wire :=
        if old_state ≠ new_state then
          { wire with counter := (wire.counter.remove old_state).add new_state }
        else wire
      some (old_out_state, wire'.read, { b with wires := b.wires.set wire_index wire' })

/-- The loop body of `Board::update_pins_inputs` from `src/board.rs`, walking
the wire's member pins.  A threaded member's component index is appended to
`threaded_components_changed` unless already present, and its `is_changed`
flag is set by `notify_on_pin_change`; a threadless member gets a direct
`set_pin`.  Either way the delivery is recorded as a `Notification`. -/
def Board.notifyPins (b : Board) (new_out_state : PinState) :
    List Nat → Option (Board × List Notification)
  | [] => some (b, [])
  | pin_index :: rest =>
      match b.pins.get? pin_index with
      | none => none
      | some pin =>
          match pin.component with
          | none => b.notifyPins new_out_state rest
          | some cid =>
              match b.common_component_data.get? cid with
              | none => none
              | some data =>
                  if data.is_threaded then
                    if data.index < b.threaded_components.length then
                      let b' : Board := { b with
                        threaded_changed :=
                          if data.index ∈ b.threaded_changed then b.threaded_changed
                          else b.threaded_changed ++ [data.index],
                        threaded_components := b.threaded_components.set data.index true }
                      match b'.notifyPins new_out_state rest with
                      | none => none
                      | some (b'', ns) =>
                          some (b'', ⟨cid, pin.id, new_out_state⟩ :: ns)
                    else none
                  else
                    if data.index < b.threadless_count then
                      match b.notifyPins new_out_state rest with
                      | none => none
                      | some (b'', ns) =>
                          some (b'', ⟨cid, pin.id, new_out_state⟩ :: ns)
                    else none

/-- `Board::update_pins_inputs` from `src/board.rs`: notifies the wire's
members only when the resolved value changed. -/
def Board.update_pins_inputs (b : Board) (wire_index : Nat)
    (old_out_state new_out_state : PinState) : Option (Board × List Notification) :=
  if new_out_state ≠ old_out_state then
    match b.wires.get? wire_index with
    | none => none
    | some wire => b.notifyPins new_out_state wire.pins
  else some (b, [])

/-- `Board::set_pin` from `src/board.rs`. -/
def Board.set_pin (b : Board) (pin_index : Nat) (state : PinState) :
    Option (Board × List Notification) :=
  match b.update_pin_output pin_index state with
  | none => none
  | some (old_state, owire, b₁) =>
      match owire with
      | none => some (b₁, [])
      | some wire_index =>
          match b₁.update_wire wire_index old_state state with
          | none => none
          | some (old_out_state, new_out_state, b₂) =>
              b₂.update_pins_inputs wire_index old_out_state new_out_state

/-- The pin lookup `self.common_component_data[cid].pins[pin_id]` used by
`Board::add_wire` (and `handle_messages`) to turn a component-local pin id
into a board-global pin index. -/
def Board.resolvePin (b : Board) (e : Nat × Nat) : Option Nat :=
  (b.common_component_data.get? e.1).bind fun d => d.pins.get? e.2

/-- The first loop of `Board::add_wire` from `src/board.rs`: for each listed
pin, push its index into the wire, add its driven state to the counter,
`assert!` that it has no wire yet (`none` is that panic) and attach the new
wire id to it. -/
def Board.add_wire_loop (wire_id : Nat) :
    Board → Wire → List (Nat × Nat) → Option (Board × Wire)
  | b, w, [] => some (b, w)
  | b, w, e :: rest =>
      match b.resolvePin e with
      | none => none
      | some index =>
          match b.pins.get? index with
          | none => none
          | some pin =>
              let w' : Wire := { counter := w.counter.add pin.out_state,
                                 pins := w.pins ++ [index] }
              if pin.wire.isSome then none
              else
                Board.add_wire_loop wire_id
                  { b with pins := b.pins.set index { pin with wire := some wire_id } }
                  w' rest

/-- The second loop of `Board::add_wire`: deliver the freshly resolved wire
state to every listed pin's component (threaded components additionally get
their `is_changed` flag set by `notify_on_pin_change`). -/
def Board.add_wire_notify (wire_state : PinState) :
    Board → List (Nat × Nat) → Option (Board × List Notification)
  | b, [] => some (b, [])
  | b, e :: rest =>
      match b.common_component_data.get? e.1 with
      | none => none
      | some data =>
          if data.is_threaded then
            if data.index < b.threaded_components.length then
              match Board.add_wire_notify wire_state
                  { b with threaded_components := b.threaded_components.set data.index true }
                  rest with
              | none => none
              | some (b', ns) => some (b', ⟨e.1, e.2, wire_state⟩ :: ns)
            else none
          else
            if data.index < b.threadless_count then
              match Board.add_wire_notify wire_state b rest with
              | none => none
              | some (b', ns) => some (b', ⟨e.1, e.2, wire_state⟩ :: ns)
            else none

/-- `Board::add_wire` from `src/board.rs`.  Returns the updated board, the
new `WireId` and the recorded initial-value deliveries. -/
def Board.add_wire (b : Board) (pins : List (Nat × Nat)) :
    Option (Board × Nat × List Notification) :=
  let wire_id := b.wires.length
  match Board.add_wire_loop wire_id b { counter := ⟨0, 0, 0, 0⟩, pins := [] } pins with
  | none => none
  | some (b₁, w) =>
      let wire_state := w.read
      let b₂ : Board := { b₁ with wires := b₁.wires ++ [w] }
      match Board.add_wire_notify wire_state b₂ pins with
      | none => none
      | some (b₃, ns) => some (b₃, wire_id, ns)

/-- The loop of `Board::handle_events` from `src/board.rs`: while the heap's
top event is due (`time ≤ current_time`), pop it and set the `is_changed`
flag of its component when that component is threaded.  Operates on the
abstract heap state (`events`) and the flag list. -/
def handleEventsGo (common : List CommonComponentData) (current_time : ℚ) :
    List PingEvent → List Bool → Option (List PingEvent × List Bool)
  | [], tc => some ([], tc)
  | e :: rest, tc =>
      if e.time ≤ current_time then
        match common.get? e.cid with
        | none => none
        | some data =>
            if data.is_threaded then
              if data.index < tc.length then
                handleEventsGo common current_time rest (tc.set data.index true)
              else none
            else handleEventsGo common current_time rest tc
      else some (e :: rest, tc)

/-- `Board::handle_events` from `src/board.rs`. -/
def Board.handle_events (b : Board) (current_time : ℚ) : Option Board :=
  (handleEventsGo b.common_component_data current_time b.events b.threaded_components).map
    fun p => { b with events := p.1, threaded_components := p.2 }

/-- The set of threaded components to which `Board::toggle_clock` sends a
`Step` message for the current half-cycle: it drains exactly
`threaded_components_changed` (`for index in self.threaded_components_changed.drain(..)
{ ... notify_step(time_ns) }`). -/
def Board.step_targets (b : Board) : List Nat := b.threaded_changed

/-!  ### The VCD writer (`src/vcd/writer.rs`)

File output is modelled as structured line lists instead of byte strings:
`ScopeLine` are the `$scope`/`$var`/`$upscope` lines, `DataLine` the value
lines of a dump, `VcdLine` the full line alphabet of the file.  The
`$var wire w <id> <name>[w-1:0]` bit-range suffix for multi-bit signals is
pure name formatting and is not reproduced. -/

/-- A VCD tree as the writer sees it (`VcdTree` from `src/vcd.rs`): modules
hold an ordered list of named children. -/
inductive VcdTree where
  | Module (children : List (String × VcdTree))
  | Signal (signal : VcdTreeSignal)
  | Disabled

/-- A handle on a component's VCD tree with its dirty flag (the
`VcdTreeHandle` the writer locks or borrows; the `Threaded`/`Threadless`
handle variants behave identically in the writer and are unified). -/
structure VcdTreeHandle where
  tree : VcdTree
  changed : Bool

/-- The `VcdWriter` state from `src/vcd/writer.rs` (minus the file handle). -/
structure VcdWriter where
  wire_id : List Nat
  forest : List (String × VcdTreeHandle)
  counter : Nat
  period : ℚ

/-- The increment loop of `VcdWriter::next_id`: bytes are bumped starting
from the last position; a byte reaching 127 wraps to 33 and carries to the
position before it.  The returned flag says the carry ran past the first
position (in which case `next_id` pushes a fresh 33). -/
def carryInc : List Nat → List Nat × Bool
  | [] => ([], true)
  | b :: rest =>
      let (rest', carry) := carryInc rest
      if carry then
        if b + 1 == 127 then (33 :: rest', true) else ((b + 1) :: rest', false)
      else (b :: rest', false)

/-- `Vec<u8>` to `String` (`std::str::from_utf8(...).to_string()`; all bytes
the generator produces are ASCII, where this is the character-wise map). -/
def bytesToString (l : List Nat) : String := ⟨l.map Char.ofNat⟩

/-- `VcdWriter::next_id` from `src/vcd/writer.rs`: returns the current
`wire_id` bytes as the next short id and increments the byte vector. -/
def VcdWriter.next_id (wire_id : List Nat) : String × List Nat :=
  let result := bytesToString wire_id
  let (w, carry) := carryInc wire_id
  (result, if carry then w ++ [33] else w)

/-- The byte state of the generator after `k` calls to `next_id`, starting
from the initial `vec![33]`; the id returned by the `k`-th call (0-based) is
the state before its increment, i.e. `idState k`. -/
def idState : Nat → List Nat
  | 0 => [33]
  | k + 1 => (VcdWriter.next_id (idState k)).2

/-- Scope-section lines emitted by `VcdWriter::write_scope`. -/
inductive ScopeLine where
  | scopeOpen (name : String)
  | scopeClose
  | varDecl (size : Nat) (id : String) (name : String)
  deriving DecidableEq, Repr

/-- Value lines emitted by `VcdWriter::write_data`: `<chars><id>` for
single-bit signals, `b<chars> <id>` for vectors. -/
inductive DataLine where
  | scalar (value : String) (id : String)
  | vector (value : String) (id : String)
  deriving DecidableEq, Repr

/-- All lines of the .vcd file. -/
inductive VcdLine where
  | info (s : String)
  | scopeItem (s : ScopeLine)
  | enddefinitions
  | dumpvarsStart
  | data (d : DataLine)
  | endToken
  | timestamp (t : Int)
  deriving DecidableEq, Repr

/-- `VcdWriter::state_to_char` from `src/vcd/writer.rs`. -/
def VcdWriter.state_to_char : PinState → Char
  | .Z => 'z'
  | .Low => '0'
  | .WeakLow => '0'
  | .High => '1'
  | .WeakHigh => '1'
  | .Error => 'x'

/-- `VcdWriter::state_vec_to_char` from `src/vcd/writer.rs`. -/
def VcdWriter.state_vec_to_char (v : PinVec) : String :=
  ⟨v.toList.map VcdWriter.state_to_char⟩

mutual

/-- `VcdWriter::write_scope` from `src/vcd/writer.rs`: emits the scope lines
of a subtree while assigning fresh short ids to its signals (threading the
generator state). -/
def write_scope (wire_id : List Nat) (t : VcdTree) (name : String) :
    List ScopeLine × VcdTree × List Nat :=
  match t with
  | .Module children =>
      let r := write_scope_children wire_id children
      (ScopeLine.scopeOpen name :: r.1 ++ [ScopeLine.scopeClose], .Module r.2.1, r.2.2)
  | .Signal s =>
      let p := VcdWriter.next_id wire_id
      ([ScopeLine.varDecl s.size p.1 name], .Signal { s with id := some p.1 }, p.2)
  | .Disabled => ([], .Disabled, wire_id)

/-- The iteration of `write_scope` over a module's children, in order. -/
def write_scope_children (wire_id : List Nat) :
    List (String × VcdTree) → List ScopeLine × List (String × VcdTree) × List Nat
  | [] => ([], [], wire_id)
  | (k, v) :: rest =>
      let r := write_scope wire_id v k
      let r' := write_scope_children r.2.2 rest
      (r.1 ++ r'.1, (k, r.2.1) :: r'.2.1, r'.2.2)

end

mutual

/-- `VcdWriter::write_data` from `src/vcd/writer.rs`.  With `dumpvars` set
every signal is dumped, otherwise only those with `old_state != new_state`;
a signal without an assigned id, or a `Disabled` node, hits the
`panic!("Invalid VcdTree!")` arm, i.e. `none`. -/
def write_data (dumpvars : Bool) : VcdTree → Option (List DataLine)
  | .Module children => write_data_children dumpvars children
  | .Signal s =>
      match s.id with
      | some id =>
          if dumpvars || s.old_state != s.new_state then
            if s.size == 1 then
              some [DataLine.scalar (VcdWriter.state_vec_to_char s.new_state) id]
            else
              some [DataLine.vector (VcdWriter.state_vec_to_char s.new_state) id]
          else some []
      | none => none
  | .Disabled => none

/-- The iteration of `write_data` over a module's children, in order. -/
def write_data_children (dumpvars : Bool) :
    List (String × VcdTree) → Option (List DataLine)
  | [] => some []
  | (_, v) :: rest =>
      match write_data dumpvars v with
      | none => none
      | some ls =>
          match write_data_children dumpvars rest with
          | none => none
          | some ls' => some (ls ++ ls')

end

/-- `VcdWriter::write_data_forest` from `src/vcd/writer.rs`: dump each
component whose handle is dirty (or all of them under `dumpvars`), clearing
every dirty flag. -/
def write_data_forest (dumpvars : Bool) :
    List (String × VcdTreeHandle) → Option (List DataLine × List (String × VcdTreeHandle))
  | [] => some ([], [])
  | (k, h) :: rest =>
      let first : Option (List DataLine) :=
        if dumpvars || h.changed then write_data dumpvars h.tree else some []
      match first with
      | none => none
      | some ls =>
          match write_data_forest dumpvars rest with
          | none => none
          | some (ls', rest') => some (ls ++ ls', (k, { h with changed := false }) :: rest')

/-- The iteration of `VcdWriter::write_scope_forest` over the forest. -/
def write_scope_handles (wire_id : List Nat) :
    List (String × VcdTreeHandle) → List ScopeLine × List (String × VcdTreeHandle) × List Nat
  | [] => ([], [], wire_id)
  | (k, h) :: rest =>
      let r := write_scope wire_id h.tree k
      let r' := write_scope_handles r.2.2 rest
      (r.1 ++ r'.1, (k, { h with tree := r.2.1 }) :: r'.2.1, r'.2.2)

/-- `VcdWriter::write_scope_forest` from `src/vcd/writer.rs`. -/
def write_scope_forest (wire_id : List Nat) (forest : List (String × VcdTreeHandle)) :
    List ScopeLine × List (String × VcdTreeHandle) × List Nat :=
  let r := write_scope_handles wire_id forest
  (ScopeLine.scopeOpen "TOP" :: r.1 ++ [ScopeLine.scopeClose], r.2.1, r.2.2)

/-- `VcdWriter::has_changed` from `src/vcd/writer.rs`. -/
def VcdWriter.has_changed (w : VcdWriter) : Bool :=
  w.forest.any fun p => p.2.changed

/-- `VcdWriter::write_header` from `src/vcd/writer.rs`: version/date/timescale
lines, the scope section (assigning short ids), `$enddefinitions`,
`$dumpvars`, one full dump, `$end`. -/
def VcdWriter.write_header (w : VcdWriter) : Option (List VcdLine × VcdWriter) :=
  let r := write_scope_forest w.wire_id w.forest
  match write_data_forest true r.2.1 with
  | none => none
  | some (dls, forest') =>
      some ([VcdLine.info "$version Generated by Amber $end",
             VcdLine.info "$date Wed Jun 7 18:38:32 2023 $end",
             VcdLine.info "$timescale 1ns $end"]
              ++ r.1.map VcdLine.scopeItem
              ++ [VcdLine.enddefinitions, VcdLine.dumpvarsStart]
              ++ dls.map VcdLine.data
              ++ [VcdLine.endToken],
            { w with wire_id := r.2.2, forest := forest' })

/-- `VcdWriter::write_step` from `src/vcd/writer.rs`: when some handle is
dirty, emit `#<round(counter * period)>` followed by the changed signals'
lines; either way the step counter advances.  (`f64::round` is
half-away-from-zero, which on the kernel's non-negative timestamps agrees
with Mathlib's `round`.) -/
def VcdWriter.write_step (w : VcdWriter) : Option (List VcdLine × VcdWriter) :=
  if w.has_changed then
    match write_data_forest false w.forest with
    | none => none
    | some (dls, forest') =>
        some (VcdLine.timestamp (round ((w.counter : ℚ) * w.period)) :: dls.map VcdLine.data,
              { w with counter := w.counter + 1, forest := forest' })
  else some ([], { w with counter := w.counter + 1 })

/-!  ### Derived notions used to state the invariants -/

/-- Contribution of a driven pin state to the `low` count of its wire's
counter (one for `Low`, one for `Error`, zero otherwise). -/
def PinState.dLow : PinState → Nat
  | .Low => 1
  | .Error => 1
  | _ => 0

/-- Contribution of a driven pin state to the `high` count. -/
def PinState.dHigh : PinState → Nat
  | .High => 1
  | .Error => 1
  | _ => 0

/-- Contribution of a driven pin state to the `weak_low` count. -/
def PinState.dWeakLow : PinState → Nat
  | .WeakLow => 1
  | _ => 0

/-- Contribution of a driven pin state to the `weak_high` count. -/
def PinState.dWeakHigh : PinState → Nat
  | .WeakHigh => 1
  | _ => 0

/-- The state currently driven by pin number `i` of the board (`Z`, the reset
value, when the index is out of range; invariants only apply it in range). -/
def Board.outStateAt (b : Board) (i : Nat) : PinState :=
  ((b.pins.get? i).map Pin.out_state).getD .Z

/-- The drive counter obtained by tallying the driven states of the listed
pins from scratch. -/
def Board.tally (b : Board) (l : List Nat) : WireStateCounter :=
  ⟨(l.map fun i => (b.outStateAt i).dLow).sum,
   (l.map fun i => (b.outStateAt i).dHigh).sum,
   (l.map fun i => (b.outStateAt i).dWeakLow).sum,
   (l.map fun i => (b.outStateAt i).dWeakHigh).sum⟩

/-- How many of the listed pins currently drive state `s`. -/
def Board.countState (b : Board) (l : List Nat) (s : PinState) : Nat :=
  l.countP fun i => b.outStateAt i == s

/-- The wire-engine invariant of a board: each wire's member list has no
duplicates, members point back to their wire, a pin's `wire` field points to
a wire it is a member of, and each wire's counter equals the tally of its
members' driven states. -/
structure Board.Inv (b : Board) : Prop where
  wire_mem : ∀ wid wire, b.wires.get? wid = some wire →
      wire.pins.Nodup ∧
      ∀ i ∈ wire.pins, ∃ pin, b.pins.get? i = some pin ∧ pin.wire = some wid
  pin_wire : ∀ i pin, b.pins.get? i = some pin → ∀ wid, pin.wire = some wid →
      ∃ wire, b.wires.get? wid = some wire ∧ i ∈ wire.pins
  counter_eq : ∀ wid wire, b.wires.get? wid = some wire →
      wire.counter = b.tally wire.pins

/-- A board before any wire was added: no wires, and no pin is attached to
one.  This is the state `Board::new` plus any number of
`add_component_threaded` / `add_component_clocked` calls produces. -/
def Board.Fresh (b : Board) : Prop :=
  b.wires = [] ∧ ∀ pin ∈ b.pins, pin.wire = none

/-- The resolved value of wire `wid` of the board, when it exists. -/
def Board.wireReadAt (b : Board) (wid : Nat) : Option PinState :=
  (b.wires.get? wid).map Wire.read

/-- Pin number `i` exists and is already attached to a wire. -/
def Board.wiredAt (b : Board) (i : Nat) : Prop :=
  ∃ pin, b.pins.get? i = some pin ∧ pin.wire.isSome = true

/-- The board-global pin indices an `add_wire` argument list resolves to. -/
def Board.resolvedList (b : Board) (entries : List (Nat × Nat)) : List Nat :=
  entries.filterMap b.resolvePin

/-- Every `(ComponentId, PinId)` entry resolves through the component table
to an existing pin (otherwise the Rust indexing panics before the
`assert!`). -/
def Board.entriesValid (b : Board) (entries : List (Nat × Nat)) : Prop :=
  ∀ e ∈ entries, ∃ i pin, b.resolvePin e = some i ∧ b.pins.get? i = some pin

/-- Every entry's component exists and its per-kind index is in bounds, so
the notification loops of `add_wire` do not panic. -/
def Board.notifyValid (b : Board) (entries : List (Nat × Nat)) : Prop :=
  ∀ e ∈ entries, ∃ d, b.common_component_data.get? e.1 = some d ∧
    (d.is_threaded = true → d.index < b.threaded_components.length) ∧
    (d.is_threaded = false → d.index < b.threadless_count)

/-- Strict lexicographic comparison of byte strings (element-wise, shorter
prefix first). -/
def lexLtBytes : List Nat → List Nat → Bool
  | [], [] => false
  | [], _ :: _ => true
  | _ :: _, [] => false
  | a :: as, b :: bs =>
      if a < b then true else if b < a then false else lexLtBytes as bs

/-- Length-then-lexicographic (shortlex) strict comparison of byte strings. -/
def shortLtBytes (a b : List Nat) : Bool :=
  decide (a.length < b.length) ||
    (decide (a.length = b.length) && lexLtBytes a b)

/-- Value of a byte string read as a big-endian bijective base-94 numeral
with digits `byte - 32 ∈ [1, 94]` (a proof-side measure for the short-id
generator). -/
def valD : List Nat → Nat
  | [] => 0
  | b :: rest => (b - 32) * 94 ^ rest.length + valD rest

end Amber

namespace Amber

/-!  ## Theorems -/

/-- C1: `WireStateCounter::read` resolves a drive counter case by case: all
counts zero gives `Z`; with both strong counts zero, only `weak_high`
nonzero gives `WeakHigh`, only `weak_low` nonzero gives `WeakLow`, and both
weak counts nonzero give `Error`; `low = 0 < high` gives `High` regardless
of the weak counts; `high = 0 < low` gives `Low`; both strong counts nonzero
give `Error`.  In particular one `WeakHigh` driver plus one `Low` driver
resolve to `Low`. -/
theorem C1_wire_counter_read (l h wl wh : Nat) :
    WireStateCounter.read ⟨0, 0, 0, 0⟩ = PinState.Z
  ∧ (0 < wh → WireStateCounter.read ⟨0, 0, 0, wh⟩ = PinState.WeakHigh)
  ∧ (0 < wl → WireStateCounter.read ⟨0, 0, wl, 0⟩ = PinState.WeakLow)
  ∧ (0 < wl → 0 < wh → WireStateCounter.read ⟨0, 0, wl, wh⟩ = PinState.Error)
  ∧ (0 < h → WireStateCounter.read ⟨0, h, wl, wh⟩ = PinState.High)
  ∧ (0 < l → WireStateCounter.read ⟨l, 0, wl, wh⟩ = PinState.Low)
  ∧ (0 < l → 0 < h → WireStateCounter.read ⟨l, h, wl, wh⟩ = PinState.Error)
  ∧ ((WireStateCounter.add (WireStateCounter.add ⟨0, 0, 0, 0⟩ .WeakHigh) .Low).read
      = PinState.Low) := by
  refine ⟨rfl, ?_, ?_, ?_, ?_, ?_, ?_, rfl⟩
  · intro hwh
    rcases wh with _ | wh
    · omega
    · rfl
  · intro hwl
    rcases wl with _ | wl
    · omega
    · rfl
  · intro hwl hwh
    rcases wl with _ | wl
    · omega
    rcases wh with _ | wh
    · omega
    · rfl
  · intro hh
    rcases h with _ | h
    · omega
    rcases wl with _ | wl <;> rcases wh with _ | wh <;> rfl
  · intro hl
    rcases l with _ | l
    · omega
    rcases wl with _ | wl <;> rcases wh with _ | wh <;> rfl
  · intro hl hh
    rcases l with _ | l
    · omega
    rcases h with _ | h
    · omega
    rcases wl with _ | wl <;> rcases wh with _ | wh <;> rfl

/-- Witness for C1 at concrete counts. -/
theorem C1_wire_counter_read_witness :
    WireStateCounter.read ⟨1, 0, 2, 3⟩ = PinState.Low :=
  (C1_wire_counter_read 1 0 2 3).2.2.2.2.2.1 (by decide)

/-- C9: `VcdTreeSignal::update` returns `true` iff the current value after
the update differs from the stored previous value, and every update replaces
`old_state` by the former `new_state` and `new_state` by the new state. -/
theorem C9_signal_update (s : VcdTreeSignal) (v : PinVec) :
    ((s.update v).2 = true ↔ (s.update v).1.new_state ≠ (s.update v).1.old_state)
  ∧ (s.update v).1.old_state = s.new_state
  ∧ (s.update v).1.new_state = v := by
  refine ⟨?_, rfl, rfl⟩
  show (s.new_state != v) = true ↔ v ≠ s.new_state
  rw [bne_iff_ne]
  exact ne_comm

/-- C3: the ping-event queue is **not** a min-priority queue.  `PingEvent`'s
`Ord` compares times ascending and `std::collections::BinaryHeap` is a
max-heap, so after pushing events at times 500 and 100 the peeked top is
the event at 500 — the maximum, not the minimum, of the stored times — and
`Board::handle_events` at `current_time = 100` consumes nothing although the
event at time 100 is due (its loop breaks as soon as the *top* is in the
future).  Pops therefore occur in non-increasing, not non-decreasing, order. -/
theorem C3_heap_is_max_heap :
    heapPush (heapPush [] ⟨0, 500⟩) ⟨1, 100⟩ = [⟨0, 500⟩, ⟨1, 100⟩]
  ∧ (heapPush (heapPush [] ⟨0, 500⟩) ⟨1, 100⟩).head? = some ⟨0, 500⟩
  ∧ ((100 : ℚ) < 500)
  ∧ Board.handle_events
      ⟨[], [], [⟨0, true, []⟩, ⟨1, true, []⟩], [], [false, false], 0,
        heapPush (heapPush [] ⟨0, 500⟩) ⟨1, 100⟩⟩ 100
      = some ⟨[], [], [⟨0, true, []⟩, ⟨1, true, []⟩], [], [false, false], 0,
          [⟨0, 500⟩, ⟨1, 100⟩]⟩ := by
  refine ⟨rfl, rfl, by norm_num, rfl⟩

/-- C4: after a component's `advance` requested a ping, draining the due
`PingEvent` does **not** lead to a `Step` dispatch.  On a board with one
threaded component whose ping at time 500 is due, `Board::handle_events`
pops the event and sets `ThreadedComponentData::is_changed` — a flag no code
ever reads — while `threaded_components_changed`, the list `toggle_clock`
drains to send `Step` messages, stays empty, so the component's `advance` is
never invoked again. -/
theorem C4_ping_sets_only_dead_flag :
    Board.handle_events ⟨[], [], [⟨0, true, []⟩], [], [false], 0, heapPush [] ⟨0, 500⟩⟩ 500
      = some ⟨[], [], [⟨0, true, []⟩], [], [true], 0, []⟩
  ∧ Board.step_targets ⟨[], [], [⟨0, true, []⟩], [], [true], 0, []⟩ = [] :=
  ⟨rfl, rfl⟩

/-- The carry loop of `next_id` preserves length and byte range, adds one to
the bijective base-94 value (overflowing into the carry flag), yields the
all-33 string exactly on full carry, and otherwise produces a
lexicographically larger string. -/
theorem carryInc_spec (w : List Nat) (hw : ∀ b ∈ w, 33 ≤ b ∧ b ≤ 126) :
    (carryInc w).1.length = w.length
  ∧ (∀ b ∈ (carryInc w).1, 33 ≤ b ∧ b ≤ 126)
  ∧ valD (carryInc w).1 + (if (carryInc w).2 then 94 ^ w.length else 0) = valD w + 1
  ∧ ((carryInc w).2 = true → (carryInc w).1 = List.replicate w.length 33)
  ∧ ((carryInc w).2 = false → lexLtBytes w (carryInc w).1 = true) := by
  induction w with
  | nil => simp [carryInc, valD]
  | cons b rest ih =>
      have hb : 33 ≤ b ∧ b ≤ 126 := hw b (List.mem_cons_self _ _)
      have ih' := ih fun x hx => hw x (List.mem_cons_of_mem _ hx)
      rcases hcc : carryInc rest with ⟨rest', carry⟩
      rw [hcc] at ih'
      obtain ⟨hlen, hrange, hval, hrep, hlex⟩ := ih'
      dsimp only at hlen hrange hval hrep hlex
      cases carry with
      | true =>
          rw [if_pos rfl] at hval
          by_cases h127 : b + 1 = 127
          · have hb126 : b = 126 := by omega
            subst hb126
            have hstep : carryInc (126 :: rest) = (33 :: rest', true) := by
              simp [carryInc, hcc]
            rw [hstep]
            dsimp only
            refine ⟨by simp [hlen], ?_, ?_, ?_, by simp⟩
            · intro x hx
              rcases List.mem_cons.mp hx with rfl | hx
              · omega
              · exact hrange x hx
            · rw [if_pos rfl]
              simp only [valD, hlen, List.length_cons, pow_succ]
              omega
            · intro _
              simp [List.replicate_succ, hrep rfl]
          · have hstep : carryInc (b :: rest) = ((b + 1) :: rest', false) := by
              have hbne : ¬((b + 1 == 127) = true) := by
                simp only [beq_iff_eq]
                omega
              simp [carryInc, hcc, hbne]
            rw [hstep]
            dsimp only
            refine ⟨by simp [hlen], ?_, ?_, by simp, ?_⟩
            · intro x hx
              rcases List.mem_cons.mp hx with rfl | hx
              · omega
              · exact hrange x hx
            · rw [if_neg Bool.false_ne_true]
              simp only [valD, hlen, List.length_cons]
              have he : b + 1 - 32 = (b - 32) + 1 := by omega
              rw [he, Nat.succ_mul]
              omega
            · intro _
              simp [lexLtBytes]
      | false =>
          rw [if_neg Bool.false_ne_true] at hval
          have hstep : carryInc (b :: rest) = (b :: rest', false) := by
            simp [carryInc, hcc]
          rw [hstep]
          dsimp only
          refine ⟨by simp [hlen], ?_, ?_, by simp, ?_⟩
          · intro x hx
            rcases List.mem_cons.mp hx with rfl | hx
            · exact hb
            · exact hrange x hx
          · rw [if_neg Bool.false_ne_true]
            simp only [valD, hlen, List.length_cons]
            omega
          · intro _
            simp [lexLtBytes, lt_self_iff_false, hlex rfl]

/-- The bijective base-94 value of the all-33 string: multiplying by the
base and adding one appends one more order of magnitude. -/
theorem valD_replicate_33 (n : Nat) :
    valD (List.replicate n 33) * 94 + 1 = valD (List.replicate n 33) + 94 ^ n := by
  induction n with
  | zero => simp [valD]
  | succ n ih =>
      rw [List.replicate_succ]
      simp only [valD, List.length_replicate]
      rw [Nat.add_mul, pow_succ]
      omega

/-- Appending a byte multiplies the bijective base-94 value by the base and
adds the new digit. -/
theorem valD_append_single (l : List Nat) (x : Nat) :
    valD (l ++ [x]) = valD l * 94 + (x - 32) := by
  induction l with
  | nil => simp [valD]
  | cons b rest ih =>
      rw [List.cons_append]
      show (b - 32) * 94 ^ (rest ++ [x]).length + valD (rest ++ [x])
          = ((b - 32) * 94 ^ rest.length + valD rest) * 94 + (x - 32)
      have hl : (rest ++ [x]).length = rest.length + 1 := by simp
      rw [hl, ih, pow_succ]
      ring

/-- One `next_id` call keeps the generator state a nonempty string of bytes
in 33..126, increments its bijective base-94 value, and strictly increases
it in shortlex order. -/
theorem next_id_step (w : List Nat) (hne : w ≠ []) (hw : ∀ b ∈ w, 33 ≤ b ∧ b ≤ 126) :
    (VcdWriter.next_id w).2 ≠ []
  ∧ (∀ b ∈ (VcdWriter.next_id w).2, 33 ≤ b ∧ b ≤ 126)
  ∧ valD (VcdWriter.next_id w).2 = valD w + 1
  ∧ shortLtBytes w (VcdWriter.next_id w).2 = true := by
  obtain ⟨hlen, hrange, hval, hrep, hlex⟩ := carryInc_spec w hw
  have hnext : (VcdWriter.next_id w).2
      = (if (carryInc w).2 then (carryInc w).1 ++ [33] else (carryInc w).1) := by
    simp only [VcdWriter.next_id]
  cases hc : (carryInc w).2 with
  | true =>
      rw [hnext, hc, if_pos rfl]
      rw [hc, if_pos rfl] at hval
      refine ⟨by simp, ?_, ?_, ?_⟩
      · intro x hx
        rcases List.mem_append.mp hx with hx | hx
        · exact hrange x hx
        · rcases List.mem_singleton.mp hx with rfl
          omega
      · rw [valD_append_single, hrep hc]
        have := valD_replicate_33 w.length
        rw [hrep hc] at hval
        omega
      · simp only [shortLtBytes, Bool.or_eq_true, Bool.and_eq_true, decide_eq_true_eq,
          List.length_append, List.length_cons, List.length_nil]
        left
        omega
  | false =>
      rw [hnext, hc, if_neg Bool.false_ne_true]
      rw [hc, if_neg Bool.false_ne_true] at hval
      refine ⟨?_, hrange, by omega, ?_⟩
      · intro hnil
        rw [hnil] at hlen
        exact hne (List.eq_nil_of_length_eq_zero hlen.symm)
      · simp [shortLtBytes, hlen, hlex hc]

/-- Every generator state `idState k` is a nonempty string of bytes in
33..126 whose bijective base-94 value is `k + 1`. -/
theorem idState_inv (k : Nat) :
    idState k ≠ [] ∧ (∀ b ∈ idState k, 33 ≤ b ∧ b ≤ 126) ∧ valD (idState k) = k + 1 := by
  induction k with
  | zero =>
      refine ⟨by simp [idState], ?_, by simp [idState, valD]⟩
      intro b hb
      simp only [idState, List.mem_singleton] at hb
      omega
  | succ k ih =>
      obtain ⟨hne, hw, hval⟩ := ih
      obtain ⟨hne', hw', hval', _⟩ := next_id_step (idState k) hne hw
      exact ⟨hne', hw', by rw [show idState (k + 1) = (VcdWriter.next_id (idState k)).2 from rfl, hval', hval]⟩

/-- `Char.ofNat` is injective on the ASCII range. -/
theorem char_ofNat_inj (x y : Nat) (hx : x ≤ 126) (hy : y ≤ 126)
    (h : Char.ofNat x = Char.ofNat y) : x = y := by
  have hvx : x.isValidChar := Or.inl (by omega)
  have hvy : y.isValidChar := Or.inl (by omega)
  have tx : (Char.ofNat x).toNat = x := by
    simp [Char.ofNat, hvx, Char.toNat, Char.ofNatAux, UInt32.toNat]
  have ty : (Char.ofNat y).toNat = y := by
    simp [Char.ofNat, hvy, Char.toNat, Char.ofNatAux, UInt32.toNat]
  rw [← tx, ← ty, h]

/-- `List.map Char.ofNat` is injective on byte lists in the ASCII range. -/
theorem mapCharInj : ∀ a b : List Nat, (∀ x ∈ a, x ≤ 126) → (∀ x ∈ b, x ≤ 126) →
    a.map Char.ofNat = b.map Char.ofNat → a = b
  | [], [], _, _, _ => rfl
  | [], _ :: _, _, _, h => by simp at h
  | _ :: _, [], _, _, h => by simp at h
  | x :: xs, y :: ys, ha, hb, h => by
      simp only [List.map_cons, List.cons.injEq] at h
      obtain ⟨h1, h2⟩ := h
      have hx := char_ofNat_inj x y (ha x (List.mem_cons_self _ _))
        (hb y (List.mem_cons_self _ _)) h1
      subst hx
      rw [mapCharInj xs ys (fun z hz => ha z (List.mem_cons_of_mem _ hz))
        (fun z hz => hb z (List.mem_cons_of_mem _ hz)) h2]

/-- Conversion to `String` is injective on byte lists in the ASCII range. -/
theorem bytesToString_inj (a b : List Nat) (ha : ∀ x ∈ a, 33 ≤ x ∧ x ≤ 126)
    (hb : ∀ x ∈ b, 33 ≤ x ∧ x ≤ 126) (h : bytesToString a = bytesToString b) : a = b :=
  mapCharInj a b (fun x hx => (ha x hx).2) (fun x hx => (hb x hx).2)
    (congrArg String.data h)

/-- C8: the short-id generator yields pairwise distinct identifiers (both as
byte vectors and as the strings `next_id` returns); every identifier is
non-empty with all bytes in the printable range 33..126; and consecutive
identifiers are strictly increasing in length-then-lexicographic order. -/
theorem C8_short_id_generator (N i j k : Nat) (hi : i < N) (hj : j < N) (hij : i ≠ j) :
    idState i ≠ idState j
  ∧ bytesToString (idState i) ≠ bytesToString (idState j)
  ∧ idState k ≠ []
  ∧ (∀ b ∈ idState k, 33 ≤ b ∧ b ≤ 126)
  ∧ shortLtBytes (idState k) (idState (k + 1)) = true := by
  obtain ⟨hnei, hwi, hvi⟩ := idState_inv i
  obtain ⟨hnej, hwj, hvj⟩ := idState_inv j
  obtain ⟨hnek, hwk, hvk⟩ := idState_inv k
  have hdist : idState i ≠ idState j := by
    intro he
    apply hij
    have hv : valD (idState i) = valD (idState j) := by rw [he]
    omega
  refine ⟨hdist, ?_, hnek, hwk, ?_⟩
  · intro he
    exact hdist (bytesToString_inj _ _ hwi hwj he)
  · exact (next_id_step (idState k) hnek hwk).2.2.2

/-- Witness for C8 at `N = 5`, `i = 0`, `j = 1`, `k = 2`. -/
theorem C8_short_id_generator_witness :
    idState 0 ≠ idState 1
  ∧ bytesToString (idState 0) ≠ bytesToString (idState 1)
  ∧ idState 2 ≠ []
  ∧ (∀ b ∈ idState 2, 33 ≤ b ∧ b ≤ 126)
  ∧ shortLtBytes (idState 2) (idState 3) = true :=
  C8_short_id_generator 5 0 1 2 (by decide) (by decide) (by decide)

/-- Scope lines are never the `$dumpvars` keyword line. -/
theorem count_dumpvars_scope (ls : List ScopeLine) :
    (ls.map VcdLine.scopeItem).count VcdLine.dumpvarsStart = 0 := by
  rw [List.count_eq_zero]
  intro hmem
  rcases List.mem_map.mp hmem with ⟨a, _, ha⟩
  exact VcdLine.noConfusion ha

/-- Data lines are never the `$dumpvars` keyword line. -/
theorem count_dumpvars_data (ls : List DataLine) :
    (ls.map VcdLine.data).count VcdLine.dumpvarsStart = 0 := by
  rw [List.count_eq_zero]
  intro hmem
  rcases List.mem_map.mp hmem with ⟨a, _, ha⟩
  exact VcdLine.noConfusion ha

/-- C5: a step in which every component's dirty flag is clear writes nothing
at all — no timestamp line and no value lines (`write_step` only advances the
step counter); moreover the `$dumpvars` block appears exactly once in the
output of `write_header` and never in the output of any `write_step`. -/
theorem C5_vcd_quiet_step_and_single_dump (w : VcdWriter) :
    ((∀ p ∈ w.forest, p.2.changed = false) →
        w.write_step = some ([], { w with counter := w.counter + 1 }))
  ∧ (∀ lines w', w.write_header = some (lines, w') →
        lines.count VcdLine.dumpvarsStart = 1)
  ∧ (∀ lines w', w.write_step = some (lines, w') →
        lines.count VcdLine.dumpvarsStart = 0) := by
  refine ⟨?_, ?_, ?_⟩
  · intro hall
    have hch : w.has_changed = false := by
      simp only [VcdWriter.has_changed, List.any_eq_false]
      intro p hp
      simp [hall p hp]
    simp [VcdWriter.write_step, hch]
  · intro lines w' hw'
    simp only [VcdWriter.write_header] at hw'
    rcases hdf : write_data_forest true (write_scope_forest w.wire_id w.forest).2.1
      with _ | ⟨dls, f''⟩
    · rw [hdf] at hw'
      exact absurd hw' (by simp)
    · rw [hdf] at hw'
      simp only [Option.some.injEq, Prod.mk.injEq] at hw'
      obtain ⟨hl, -⟩ := hw'
      rw [← hl]
      simp only [write_scope_forest, List.count_append, List.count_cons
        , count_dumpvars_scope, count_dumpvars_data]
      rfl
  · intro lines w' hw'
    simp only [VcdWriter.write_step] at hw'
    by_cases hch : w.has_changed = true
    · rw [if_pos hch] at hw'
      rcases hdf : write_data_forest false w.forest with _ | ⟨dls, f'⟩
      · rw [hdf] at hw'
        exact absurd hw' (by simp)
      · rw [hdf] at hw'
        simp only [Option.some.injEq, Prod.mk.injEq] at hw'
        obtain ⟨hl, -⟩ := hw'
        rw [← hl]
        simp [List.count_cons, count_dumpvars_data]
    · rw [if_neg hch] at hw'
      simp only [Option.some.injEq, Prod.mk.injEq] at hw'
      obtain ⟨hl, -⟩ := hw'
      rw [← hl]
      rfl

/-- Writing back the element already stored leaves a list unchanged. -/
theorem set_self_of_get {α : Type} (l : List α) :
    ∀ (i : Nat) (a : α), l.get? i = some a → l.set i a = l := by
  induction l with
  | nil =>
      intro i a h
      simp at h
  | cons x xs ih =>
      intro i a h
      cases i with
      | zero =>
          simp only [List.get?] at h
          injection h with h
          simp [h]
      | succ n =>
          simp only [List.get?] at h
          simp [List.set, ih n a h]

/-- An index holding an element is within bounds. -/
theorem lt_length_of_get {α : Type} (l : List α) :
    ∀ (i : Nat) (a : α), l.get? i = some a → i < l.length := by
  induction l with
  | nil =>
      intro i a h
      simp at h
  | cons x xs ih =>
      intro i a h
      cases i with
      | zero => simp
      | succ n =>
          simp only [List.get?] at h
          exact Nat.succ_lt_succ (ih n a h)

/-- `WireStateCounter::add` adds the per-field drive contributions. -/
theorem WireStateCounter.add_eq (c : WireStateCounter) (s : PinState) :
    c.add s = ⟨c.low + s.dLow, c.high + s.dHigh,
               c.weak_low + s.dWeakLow, c.weak_high + s.dWeakHigh⟩ := by
  cases s <;> rfl

/-- `WireStateCounter::remove` subtracts the per-field drive contributions. -/
theorem WireStateCounter.remove_eq (c : WireStateCounter) (s : PinState) :
    c.remove s = ⟨c.low - s.dLow, c.high - s.dHigh,
                  c.weak_low - s.dWeakLow, c.weak_high - s.dWeakHigh⟩ := by
  cases s <;> rfl

/-- `outStateAt` only looks at the pin list. -/
theorem outStateAt_pins_congr (b b' : Board) (h : b'.pins = b.pins) (j : Nat) :
    b'.outStateAt j = b.outStateAt j := by
  rw [Board.outStateAt, Board.outStateAt, h]

/-- `tally` is determined by the driven states of the listed pins. -/
theorem tally_congr {b b' : Board} {l : List Nat}
    (h : ∀ i ∈ l, b.outStateAt i = b'.outStateAt i) : b.tally l = b'.tally l := by
  have h1 : l.map (fun i => (b.outStateAt i).dLow)
      = l.map (fun i => (b'.outStateAt i).dLow) :=
    List.map_eq_map_iff.mpr fun i hi => by rw [h i hi]
  have h2 : l.map (fun i => (b.outStateAt i).dHigh)
      = l.map (fun i => (b'.outStateAt i).dHigh) :=
    List.map_eq_map_iff.mpr fun i hi => by rw [h i hi]
  have h3 : l.map (fun i => (b.outStateAt i).dWeakLow)
      = l.map (fun i => (b'.outStateAt i).dWeakLow) :=
    List.map_eq_map_iff.mpr fun i hi => by rw [h i hi]
  have h4 : l.map (fun i => (b.outStateAt i).dWeakHigh)
      = l.map (fun i => (b'.outStateAt i).dWeakHigh) :=
    List.map_eq_map_iff.mpr fun i hi => by rw [h i hi]
  rw [Board.tally, Board.tally, h1, h2, h3, h4]

/-- Replacing the value of one distinguished duplicate-free member changes a
mapped sum by removing the old value and adding the new one. -/
theorem sum_update_one {l : List Nat} {i : Nat} (hi : i ∈ l) (hnd : l.Nodup)
    (f g : Nat → Nat) (hfg : ∀ j ∈ l, j ≠ i → f j = g j) :
    (l.map g).sum + f i = (l.map f).sum + g i := by
  induction l with
  | nil => cases hi
  | cons a rest ih =>
      rcases List.mem_cons.mp hi with rfl | hmem
      · have hni : i ∉ rest := (List.nodup_cons.mp hnd).1
        have hrest : rest.map f = rest.map g :=
          List.map_eq_map_iff.mpr fun j hj =>
            hfg j (List.mem_cons_of_mem _ hj) fun he => hni (he ▸ hj)
        simp only [List.map_cons, List.sum_cons, hrest]
        omega
      · have hne : a ≠ i := by
          rintro rfl
          exact (List.nodup_cons.mp hnd).1 hmem
        have hfa : f a = g a := hfg a (List.mem_cons_self _ _) hne
        have := ih hmem (List.nodup_cons.mp hnd).2
          fun j hj hne' => hfg j (List.mem_cons_of_mem _ hj) hne'
        simp only [List.map_cons, List.sum_cons, hfa]
        omega

/-- A member's value is at most the mapped sum. -/
theorem single_le_map_sum {l : List Nat} {i : Nat} (hi : i ∈ l) (f : Nat → Nat) :
    f i ≤ (l.map f).sum :=
  List.le_sum_of_mem (List.mem_map_of_mem f hi)

/-- The wire-engine invariant only depends on the pin and wire lists. -/
theorem inv_core {b b' : Board} (hp : b'.pins = b.pins) (hw : b'.wires = b.wires)
    (h : Board.Inv b) : Board.Inv b' := by
  refine ⟨?_, ?_, ?_⟩
  · intro wid wire hg
    rw [hw] at hg
    obtain ⟨hnd, hmem⟩ := h.wire_mem wid wire hg
    exact ⟨hnd, fun i hi => by rw [hp]; exact hmem i hi⟩
  · intro i pin hg wid hwid
    rw [hp] at hg
    obtain ⟨wire, hg', hmem⟩ := h.pin_wire i pin hg wid hwid
    exact ⟨wire, by rw [hw]; exact hg', hmem⟩
  · intro wid wire hg
    rw [hw] at hg
    rw [h.counter_eq wid wire hg]
    exact tally_congr fun i _ => (outStateAt_pins_congr b b' hp i).symm

/-- A board with no wires satisfies the wire-engine invariant. -/
theorem inv_fresh {b : Board} (h : Board.Fresh b) : Board.Inv b := by
  obtain ⟨hw, hp⟩ := h
  refine ⟨?_, ?_, ?_⟩
  · intro wid wire hg
    rw [hw] at hg
    simp at hg
  · intro i pin hg wid hwid
    have := hp pin (by
      have := lt_length_of_get b.pins i pin hg
      exact List.get?_mem hg)
    rw [this] at hwid
    cases hwid
  · intro wid wire hg
    rw [hw] at hg
    simp at hg

/-- The total of a tallied counter, the member count and the `Z`/`Error`
member counts are linearly related. -/
theorem total_tally (b : Board) (l : List Nat) :
    (b.tally l).total + b.countState l .Z
      = l.length + b.countState l .Error := by
  induction l with
  | nil => rfl
  | cons j rest ih =>
      cases hsj : b.outStateAt j <;>
        simp only [Board.tally, WireStateCounter.total, Board.countState,
          List.countP_cons, List.map_cons, List.sum_cons, List.length_cons, hsj,
          PinState.dLow, PinState.dHigh, PinState.dWeakLow, PinState.dWeakHigh] at ih ⊢ <;>
        simp only [beq_iff_eq, reduceCtorEq, if_false, if_true] <;>
        omega

/-- The driven state a pin index resolves to. -/
theorem outStateAt_eq_of_get {b : Board} {i : Nat} {pin : Pin}
    (hp : b.pins.get? i = some pin) : b.outStateAt i = pin.out_state := by
  rw [Board.outStateAt, hp]
  rfl

/-- Changing one pin's driven state changes `outStateAt` exactly there. -/
theorem outStateAt_set_out (b : Board) (i : Nat) (pin : Pin)
    (hp : b.pins.get? i = some pin) (s : PinState) (j : Nat) :
    Board.outStateAt { b with pins := b.pins.set i { pin with out_state := s } } j
      = if j = i then s else b.outStateAt j := by
  by_cases hj : j = i
  · subst hj
    have hlt := lt_length_of_get b.pins j pin hp
    rw [Board.outStateAt, List.get?_set_eq_of_lt _ hlt, if_pos rfl]
    rfl
  · rw [Board.outStateAt, Board.outStateAt, List.get?_set_ne _ _ (Ne.symm hj), if_neg hj]

/-- Changing one pin's wire attachment leaves every driven state unchanged. -/
theorem outStateAt_set_wire (b : Board) (i : Nat) (pin : Pin)
    (hp : b.pins.get? i = some pin) (w : Option Nat) (j : Nat) :
    Board.outStateAt { b with pins := b.pins.set i { pin with wire := w } } j
      = b.outStateAt j := by
  by_cases hj : j = i
  · subst hj
    have hlt := lt_length_of_get b.pins j pin hp
    rw [Board.outStateAt, Board.outStateAt, List.get?_set_eq_of_lt _ hlt, hp]
    rfl
  · rw [Board.outStateAt, Board.outStateAt, List.get?_set_ne _ _ (Ne.symm hj)]

/-- `update_pins_inputs`' notification loop only touches the input-dirty
bookkeeping: pins, wires, the component table, the threadless count and the
event heap are unchanged. -/
theorem notifyPins_core (ws : PinState) :
    ∀ (l : List Nat) (b b' : Board) (ns : List Notification),
      Board.notifyPins b ws l = some (b', ns) →
      b'.pins = b.pins ∧ b'.wires = b.wires
      ∧ b'.common_component_data = b.common_component_data
      ∧ b'.threadless_count = b.threadless_count ∧ b'.events = b.events := by
  intro l
  induction l with
  | nil =>
      intro b b' ns h
      simp only [Board.notifyPins, Option.some.injEq, Prod.mk.injEq] at h
      obtain ⟨rfl, -⟩ := h
      exact ⟨rfl, rfl, rfl, rfl, rfl⟩
  | cons p rest ih =>
      intro b b' ns h
      simp only [Board.notifyPins] at h
      rcases hgp : b.pins.get? p with _ | pin
      · rw [hgp] at h
        exact absurd h (by simp)
      rw [hgp] at h
      dsimp only at h
      rcases hcomp : pin.component with _ | cid
      · rw [hcomp] at h
        exact ih b b' ns h
      rw [hcomp] at h
      dsimp only at h
      rcases hcd : b.common_component_data.get? cid with _ | data
      · rw [hcd] at h
        exact absurd h (by simp)
      rw [hcd] at h
      dsimp only at h
      by_cases hth : data.is_threaded = true
      · rw [if_pos hth] at h
        by_cases hlt : data.index < b.threaded_components.length
        · rw [if_pos hlt] at h
          rcases hrec : Board.notifyPins
              { b with
                threaded_changed :=
                  if data.index ∈ b.threaded_changed then b.threaded_changed
                  else b.threaded_changed ++ [data.index],
                threaded_components := b.threaded_components.set data.index true }
              ws rest with _ | q
          · rw [hrec] at h
            exact absurd h (by simp)
          · rw [hrec] at h
            simp only [Option.some.injEq, Prod.mk.injEq] at h
            obtain ⟨rfl, -⟩ := h
            have hrec' := ih _ q.1 q.2 hrec
            exact hrec'
        · rw [if_neg hlt] at h
          exact absurd h (by simp)
      · rw [if_neg hth] at h
        by_cases hlt : data.index < b.threadless_count
        · rw [if_pos hlt] at h
          rcases hrec : Board.notifyPins b ws rest with _ | q
          · rw [hrec] at h
            exact absurd h (by simp)
          · rw [hrec] at h
            simp only [Option.some.injEq, Prod.mk.injEq] at h
            obtain ⟨rfl, -⟩ := h
            exact ih b q.1 q.2 hrec
        · rw [if_neg hlt] at h
          exact absurd h (by simp)

/-- Anatomy of a successful `Board::set_pin`: the pin exists and gets the
new driven state; either it has no wire (nothing else happens), or its
wire's counter is updated (only when the state changed) and, when the
resolved value did not change, no notification goes out and the input-dirty
bookkeeping is untouched. -/
theorem set_pin_shape {b : Board} {i : Nat} {s : PinState} {b' : Board}
    {ns : List Notification} (h : b.set_pin i s = some (b', ns)) :
    ∃ pin, b.pins.get? i = some pin
      ∧ b'.pins = b.pins.set i { pin with out_state := s }
      ∧ ((pin.wire = none ∧ b'.wires = b.wires ∧ ns = []
            ∧ b'.threaded_changed = b.threaded_changed
            ∧ b'.threaded_components = b.threaded_components)
        ∨ ∃ wid wire0,
            pin.wire = some wid ∧ b.wires.get? wid = some wire0
          ∧ ∃ wire',
              wire' = (if pin.out_state ≠ s
                  then { wire0 with
                          counter := (wire0.counter.remove pin.out_state).add s }
                  else wire0)
            ∧ b'.wires = b.wires.set wid wire'
            ∧ (wire'.read = wire0.read → ns = []
                ∧ b'.threaded_changed = b.threaded_changed
                ∧ b'.threaded_components = b.threaded_components)) := by
  rw [Board.set_pin, Board.update_pin_output] at h
  rcases hp : b.pins.get? i with _ | pin
  · rw [hp] at h
    exact absurd h (by simp)
  rw [hp] at h
  dsimp only at h
  rcases hw : pin.wire with _ | wid
  · rw [hw] at h
    dsimp only at h
    simp only [Option.some.injEq, Prod.mk.injEq] at h
    obtain ⟨rfl, rfl⟩ := h
    exact ⟨pin, rfl, by rw [hw], Or.inl ⟨hw, rfl, rfl, rfl, rfl⟩⟩
  · rw [hw] at h
    dsimp only at h
    rw [Board.update_wire] at h
    rcases hgw : b.wires.get? wid with _ | wire0
    · rw [hgw] at h
      exact absurd h (by simp)
    rw [hgw] at h
    dsimp only at h
    set wire' : Wire := (if pin.out_state ≠ s
        then { wire0 with counter := (wire0.counter.remove pin.out_state).add s }
        else wire0) with hwire'
    rw [Board.update_pins_inputs] at h
    by_cases hrr : wire'.read = wire0.read
    · rw [if_neg (not_not_intro hrr)] at h
      simp only [Option.some.injEq, Prod.mk.injEq] at h
      obtain ⟨rfl, rfl⟩ := h
      exact ⟨pin, rfl, by rw [hw],
        Or.inr ⟨wid, wire0, hw, hgw, wire', hwire', rfl,
          fun _ => ⟨rfl, rfl, rfl⟩⟩⟩
    · rw [if_pos hrr] at h
      have hglt : wid < b.wires.length := lt_length_of_get b.wires wid wire0 hgw
      have hgset : (b.wires.set wid wire').get? wid = some wire' :=
        List.get?_set_eq_of_lt _ hglt
      rw [hgset] at h
      dsimp only at h
      obtain ⟨hpins, hwires, -, -, -⟩ := notifyPins_core _ _ _ _ _ h
      exact ⟨pin, rfl, by rw [hw]; exact hpins,
        Or.inr ⟨wid, wire0, hw, hgw, wire', hwire', hwires,
          fun hc => absurd hc hrr⟩⟩

/-- One counter field after a remove/add pair equals the recomputed sum when
exactly one duplicate-free member changed state. -/
theorem sum_field_update (b b' : Board) (l : List Nat) (i : Nat) (s : PinState)
    (hi : i ∈ l) (hnd : l.Nodup) (F : PinState → Nat)
    (hout : ∀ j, b'.outStateAt j = if j = i then s else b.outStateAt j) :
    (l.map fun j => F (b.outStateAt j)).sum - F (b.outStateAt i) + F s
      = (l.map fun j => F (b'.outStateAt j)).sum := by
  have e1 := sum_update_one hi hnd (fun j => F (b.outStateAt j))
    (fun j => F (b'.outStateAt j))
    (fun j _ hne => by dsimp only; rw [hout j, if_neg hne])
  have le1 := single_le_map_sum hi (fun j => F (b.outStateAt j))
  have hgi : F (b'.outStateAt i) = F s := by rw [hout i, if_pos rfl]
  dsimp only at e1 le1
  rw [hgi] at e1
  omega

/-- `set_pin` preserves the wire-engine invariant. -/
theorem inv_set_pin {b : Board} {i : Nat} {s : PinState} {b' : Board}
    {ns : List Notification} (hInv : Board.Inv b)
    (h : b.set_pin i s = some (b', ns)) : Board.Inv b' := by
  obtain ⟨pin, hp, hbp, hcase⟩ := set_pin_shape h
  have hplt : i < b.pins.length := lt_length_of_get b.pins i pin hp
  have hout : ∀ j, b'.outStateAt j = if j = i then s else b.outStateAt j := by
    intro j
    have hstep := outStateAt_set_out b i pin hp s j
    calc b'.outStateAt j
        = Board.outStateAt
            { b with pins := b.pins.set i { pin with out_state := s } } j := by
          rw [Board.outStateAt, Board.outStateAt, hbp]
      _ = _ := hstep
  rcases hcase with ⟨hwn, hbw, -, -, -⟩ | ⟨wid, wire0, hwsome, hgw, wire', hwire', hbw, -⟩
  · refine ⟨?_, ?_, ?_⟩
    · intro wid wire hg
      rw [hbw] at hg
      obtain ⟨hnd, hmem⟩ := hInv.wire_mem wid wire hg
      refine ⟨hnd, fun j hj => ?_⟩
      obtain ⟨pinj, hpj, hwj⟩ := hmem j hj
      have hji : j ≠ i := by
        rintro rfl
        rw [hp] at hpj
        injection hpj with e
        rw [← e, hwn] at hwj
        cases hwj
      refine ⟨pinj, ?_, hwj⟩
      rw [hbp, List.get?_set_ne _ _ (Ne.symm hji)]
      exact hpj
    · intro j pinj hg wid hwj
      by_cases hji : j = i
      · subst hji
        rw [hbp, List.get?_set_eq_of_lt _ hplt] at hg
        injection hg with e
        rw [← e] at hwj
        dsimp only at hwj
        rw [hwn] at hwj
        cases hwj
      · rw [hbp, List.get?_set_ne _ _ (Ne.symm hji)] at hg
        obtain ⟨wire, hgw', hmem⟩ := hInv.pin_wire j pinj hg wid hwj
        exact ⟨wire, by rw [hbw]; exact hgw', hmem⟩
    · intro wid wire hg
      rw [hbw] at hg
      rw [hInv.counter_eq wid wire hg]
      refine tally_congr fun j hj => ?_
      obtain ⟨-, hmem⟩ := hInv.wire_mem wid wire hg
      obtain ⟨pinj, hpj, hwj⟩ := hmem j hj
      have hji : j ≠ i := by
        rintro rfl
        rw [hp] at hpj
        injection hpj with e
        rw [← e, hwn] at hwj
        cases hwj
      rw [hout j, if_neg hji]
  · obtain ⟨wireX, hgwX, himem⟩ := hInv.pin_wire i pin hp wid hwsome
    rw [hgw] at hgwX
    injection hgwX with e
    subst e
    obtain ⟨hnd0, hmem0⟩ := hInv.wire_mem wid wire0 hgw
    have hglt : wid < b.wires.length := lt_length_of_get _ _ _ hgw
    have hwire'_pins : wire'.pins = wire0.pins := by
      rw [hwire']
      by_cases hss : pin.out_state ≠ s
      · rw [if_pos hss]
      · rw [if_neg hss]
    refine ⟨?_, ?_, ?_⟩
    · intro wid2 wire2 hg2
      rw [hbw] at hg2
      by_cases h2 : wid2 = wid
      · subst h2
        rw [List.get?_set_eq_of_lt _ hglt] at hg2
        injection hg2 with e2
        subst e2
        rw [hwire'_pins]
        refine ⟨hnd0, fun j hj => ?_⟩
        by_cases hji : j = i
        · subst hji
          refine ⟨{ pin with out_state := s }, ?_, hwsome⟩
          rw [hbp, List.get?_set_eq_of_lt _ hplt]
        · obtain ⟨pinj, hpj, hwj⟩ := hmem0 j hj
          exact ⟨pinj, by rw [hbp, List.get?_set_ne _ _ (Ne.symm hji)]; exact hpj, hwj⟩
      · rw [List.get?_set_ne _ _ (fun he => h2 he.symm)] at hg2
        obtain ⟨hnd2, hmem2⟩ := hInv.wire_mem wid2 wire2 hg2
        refine ⟨hnd2, fun j hj => ?_⟩
        obtain ⟨pinj, hpj, hwj⟩ := hmem2 j hj
        have hji : j ≠ i := by
          rintro rfl
          rw [hp] at hpj
          injection hpj with e3
          rw [← e3, hwsome] at hwj
          injection hwj with e4
          exact h2 e4.symm
        exact ⟨pinj, by rw [hbp, List.get?_set_ne _ _ (Ne.symm hji)]; exact hpj, hwj⟩
    · intro j pinj hg2 wid2 hwj
      by_cases hji : j = i
      · subst hji
        rw [hbp, List.get?_set_eq_of_lt _ hplt] at hg2
        injection hg2 with e2
        rw [← e2] at hwj
        dsimp only at hwj
        rw [hwsome] at hwj
        injection hwj with e3
        subst e3
        refine ⟨wire', ?_, ?_⟩
        · rw [hbw, List.get?_set_eq_of_lt _ hglt]
        · rw [hwire'_pins]
          exact himem
      · rw [hbp, List.get?_set_ne _ _ (Ne.symm hji)] at hg2
        obtain ⟨wireJ, hgJ, hmemJ⟩ := hInv.pin_wire j pinj hg2 wid2 hwj
        by_cases h2 : wid2 = wid
        · subst h2
          rw [hgw] at hgJ
          injection hgJ with e2
          rw [← e2] at hmemJ
          refine ⟨wire', by rw [hbw, List.get?_set_eq_of_lt _ hglt], ?_⟩
          rw [hwire'_pins]
          exact hmemJ
        · exact ⟨wireJ,
            by rw [hbw, List.get?_set_ne _ _ (fun he => h2 he.symm)]; exact hgJ, hmemJ⟩
    · intro wid2 wire2 hg2
      rw [hbw] at hg2
      by_cases h2 : wid2 = wid
      · subst h2
        rw [List.get?_set_eq_of_lt _ hglt] at hg2
        injection hg2 with e2
        subst e2
        by_cases hss : pin.out_state = s
        · have hww : wire' = wire0 := by
            rw [hwire', if_neg (not_not_intro hss)]
          rw [hww, hInv.counter_eq _ wire0 hgw]
          refine tally_congr fun j _ => ?_
          rw [hout j]
          by_cases hji : j = i
          · subst hji
            rw [if_pos rfl, outStateAt_eq_of_get hp, hss]
          · rw [if_neg hji]
        · have hww : wire' = { wire0 with
              counter := (wire0.counter.remove pin.out_state).add s } := by
            rw [hwire', if_pos hss]
          rw [hww]
          dsimp only
          rw [hInv.counter_eq _ wire0 hgw, WireStateCounter.remove_eq,
            WireStateCounter.add_eq]
          have hfi : b.outStateAt i = pin.out_state := outStateAt_eq_of_get hp
          simp only [Board.tally, WireStateCounter.mk.injEq]
          rw [← hfi]
          exact ⟨sum_field_update b b' wire0.pins i s himem hnd0 PinState.dLow hout,
            sum_field_update b b' wire0.pins i s himem hnd0 PinState.dHigh hout,
            sum_field_update b b' wire0.pins i s himem hnd0 PinState.dWeakLow hout,
            sum_field_update b b' wire0.pins i s himem hnd0 PinState.dWeakHigh hout⟩
      · rw [List.get?_set_ne _ _ (fun he => h2 he.symm)] at hg2
        rw [hInv.counter_eq wid2 wire2 hg2]
        refine tally_congr fun j hj => ?_
        obtain ⟨-, hmem2⟩ := (hInv.wire_mem wid2 wire2 hg2)
        obtain ⟨pinj, hpj, hwj⟩ := hmem2 j hj
        have hji : j ≠ i := by
          rintro rfl
          rw [hp] at hpj
          injection hpj with e3
          rw [← e3, hwsome] at hwj
          injection hwj with e4
          exact h2 e4.symm
        rw [hout j, if_neg hji]

/-- C7: if `set_pin` writes the state the pin already drives, every wire
(in particular its counters) is left unchanged; and whenever the attached
wire resolves to the same value before and after the update, no component
receives a pin-change notification and the `threaded_components_changed`
list and `is_changed` flags are untouched — even when the counters did
update. -/
theorem C7_set_pin_frame (b : Board) (i : Nat) (s : PinState) (b' : Board)
    (ns : List Notification) (h : b.set_pin i s = some (b', ns)) :
    (∀ pin, b.pins.get? i = some pin → pin.out_state = s → b'.wires = b.wires)
  ∧ (∀ pin wid, b.pins.get? i = some pin → pin.wire = some wid →
      b.wireReadAt wid = b'.wireReadAt wid →
      ns = [] ∧ b'.threaded_changed = b.threaded_changed
        ∧ b'.threaded_components = b.threaded_components) := by
  obtain ⟨pin, hp, hbp, hcase⟩ := set_pin_shape h
  constructor
  · intro pin1 hp1 hs1
    rw [hp] at hp1
    injection hp1 with e1
    subst e1
    rcases hcase with ⟨-, hbw, -⟩ | ⟨wid, wire0, hwsome, hgw, wire', hwire', hbw, -⟩
    · exact hbw
    · have hww : wire' = wire0 := by
        rw [hwire', if_neg (not_not_intro hs1)]
      rw [hbw, hww, set_self_of_get _ _ _ hgw]
  · intro pin1 wid1 hp1 hw1 hrr
    rw [hp] at hp1
    injection hp1 with e1
    subst e1
    rcases hcase with ⟨hwn, -, -⟩ | ⟨wid, wire0, hwsome, hgw, wire', hwire', hbw, himp⟩
    · rw [hwn] at hw1
      cases hw1
    · rw [hwsome] at hw1
      injection hw1 with e2
      rw [← e2] at hrr
      have hglt := lt_length_of_get _ _ _ hgw
      rw [Board.wireReadAt, Board.wireReadAt, hgw, hbw,
        List.get?_set_eq_of_lt _ hglt] at hrr
      simp only [Option.map_some'] at hrr
      injection hrr with e3
      exact himp e3.symm

/-- Witness for C7: on a two-pin wire driving `⟨0, 2, 0, 0⟩`, rewriting pin 0
from `High` to `WeakHigh` updates the counters but leaves the resolved value
`High`, so nothing is notified. -/
theorem C7_set_pin_frame_witness :
    ([] : List Notification) = []
  ∧ ([] : List Nat) = []
  ∧ ([] : List Bool) = [] := by
  have happ := C7_set_pin_frame
    ⟨[⟨0, some 0, some 0, .High⟩, ⟨1, some 0, some 0, .High⟩],
      [⟨⟨0, 2, 0, 0⟩, [0, 1]⟩], [⟨0, false, [0, 1]⟩], [], [], 1, []⟩
    0 .WeakHigh
    ⟨[⟨0, some 0, some 0, .WeakHigh⟩, ⟨1, some 0, some 0, .High⟩],
      [⟨⟨0, 1, 0, 1⟩, [0, 1]⟩], [⟨0, false, [0, 1]⟩], [], [], 1, []⟩
    [] rfl
  exact happ.2 ⟨0, some 0, some 0, .High⟩ 0 rfl rfl rfl

/-- Anatomy of a successful first loop of `Board::add_wire`: every entry
resolves, the resolved indices are pairwise distinct and previously
unwired, the wire accumulates exactly those members and their tallied
driven states, only the pins' wire attachments change, and untouched pins
keep their records. -/
theorem add_wire_loop_sound (wid : Nat) :
    ∀ (entries : List (Nat × Nat)) (b : Board) (w : Wire) (bw : Board × Wire),
      Board.add_wire_loop wid b w entries = some bw →
      entries.map b.resolvePin = (b.resolvedList entries).map some
    ∧ bw.2.pins = w.pins ++ b.resolvedList entries
    ∧ bw.2.counter = ⟨w.counter.low
          + ((b.resolvedList entries).map fun k => (b.outStateAt k).dLow).sum,
        w.counter.high
          + ((b.resolvedList entries).map fun k => (b.outStateAt k).dHigh).sum,
        w.counter.weak_low
          + ((b.resolvedList entries).map fun k => (b.outStateAt k).dWeakLow).sum,
        w.counter.weak_high
          + ((b.resolvedList entries).map fun k => (b.outStateAt k).dWeakHigh).sum⟩
    ∧ bw.1.wires = b.wires
    ∧ bw.1.common_component_data = b.common_component_data
    ∧ bw.1.threaded_changed = b.threaded_changed
    ∧ bw.1.threaded_components = b.threaded_components
    ∧ bw.1.threadless_count = b.threadless_count
    ∧ bw.1.events = b.events
    ∧ (∀ j, bw.1.outStateAt j = b.outStateAt j)
    ∧ (b.resolvedList entries).Nodup
    ∧ (∀ k ∈ b.resolvedList entries, ∃ pin, b.pins.get? k = some pin ∧ pin.wire = none)
    ∧ (∀ k ∈ b.resolvedList entries,
          ∃ pin, bw.1.pins.get? k = some pin ∧ pin.wire = some wid)
    ∧ (∀ j pinj, b.pins.get? j = some pinj → j ∉ b.resolvedList entries →
          bw.1.pins.get? j = some pinj)
    ∧ (∀ j pinj, bw.1.pins.get? j = some pinj → j ∉ b.resolvedList entries →
          b.pins.get? j = some pinj) := by
  intro entries
  induction entries with
  | nil =>
      intro b w bw h
      simp only [Board.add_wire_loop, Option.some.injEq] at h
      subst h
      refine ⟨rfl, by simp [Board.resolvedList], by simp [Board.resolvedList],
        rfl, rfl, rfl, rfl, rfl, rfl,
        fun j => rfl, by simp [Board.resolvedList], by simp [Board.resolvedList],
        by simp [Board.resolvedList], fun j pinj hg _ => hg, fun j pinj hg _ => hg⟩
  | cons e rest ih =>
      intro b w bw h
      simp only [Board.add_wire_loop] at h
      rcases hre : b.resolvePin e with _ | i
      · rw [hre] at h
        exact absurd h (by simp)
      rw [hre] at h
      dsimp only at h
      rcases hpi : b.pins.get? i with _ | pin
      · rw [hpi] at h
        exact absurd h (by simp)
      rw [hpi] at h
      dsimp only at h
      rcases hfresh : pin.wire.isSome with _ | _
      · rw [hfresh] at h
        rw [if_neg Bool.false_ne_true] at h
        have hwn : pin.wire = none :=
          Option.not_isSome_iff_eq_none.mp (by rw [hfresh]; simp)
        have hplt : i < b.pins.length := lt_length_of_get b.pins i pin hpi
        have hRL : b.resolvedList (e :: rest) = i :: b.resolvedList rest := by
          rw [Board.resolvedList, Board.resolvedList, List.filterMap_cons, hre]
        have hRL1 : Board.resolvedList
            { b with pins := b.pins.set i { pin with wire := some wid } } rest
            = b.resolvedList rest := rfl
        have houts : ∀ j,
            Board.outStateAt
              { b with pins := b.pins.set i { pin with wire := some wid } } j
            = b.outStateAt j := outStateAt_set_wire b i pin hpi (some wid)
        have hgi1 : (b.pins.set i { pin with wire := some wid }).get? i
            = some { pin with wire := some wid } := List.get?_set_eq_of_lt _ hplt
        obtain ⟨ih1, ih2, ih3, ih4, ih5, ih6, ih7, ih8, ih9, ih10, ih11, ih12,
          ih13, ih14, ih15⟩ := ih _ _ _ h
        rw [hRL1] at ih1 ih2 ih3 ih11 ih12 ih13 ih14 ih15
        have hnotinR : i ∉ b.resolvedList rest := by
          intro hmem
          obtain ⟨pin2, hg2, hw2⟩ := ih12 i hmem
          dsimp only at hg2
          rw [hgi1] at hg2
          injection hg2 with e2
          rw [← e2] at hw2
          dsimp only at hw2
          cases hw2
        have hfi : b.outStateAt i = pin.out_state := outStateAt_eq_of_get hpi
        have hm1 : (b.resolvedList rest).map (fun k => (Board.outStateAt
              { b with pins := b.pins.set i { pin with wire := some wid } } k).dLow)
            = (b.resolvedList rest).map (fun k => (b.outStateAt k).dLow) :=
          List.map_eq_map_iff.mpr fun k _ => by rw [houts k]
        have hm2 : (b.resolvedList rest).map (fun k => (Board.outStateAt
              { b with pins := b.pins.set i { pin with wire := some wid } } k).dHigh)
            = (b.resolvedList rest).map (fun k => (b.outStateAt k).dHigh) :=
          List.map_eq_map_iff.mpr fun k _ => by rw [houts k]
        have hm3 : (b.resolvedList rest).map (fun k => (Board.outStateAt
              { b with pins := b.pins.set i { pin with wire := some wid } } k).dWeakLow)
            = (b.resolvedList rest).map (fun k => (b.outStateAt k).dWeakLow) :=
          List.map_eq_map_iff.mpr fun k _ => by rw [houts k]
        have hm4 : (b.resolvedList rest).map (fun k => (Board.outStateAt
              { b with pins := b.pins.set i { pin with wire := some wid } } k).dWeakHigh)
            = (b.resolvedList rest).map (fun k => (b.outStateAt k).dWeakHigh) :=
          List.map_eq_map_iff.mpr fun k _ => by rw [houts k]
        refine ⟨?_, ?_, ?_, ih4, ih5, ih6, ih7, ih8, ih9,
          fun j => (ih10 j).trans (houts j), ?_, ?_, ?_, ?_, ?_⟩
        · rw [hRL, List.map_cons, List.map_cons, hre]
          exact congrArg (List.cons (some i)) ih1
        · rw [hRL, ih2]
          dsimp only
          rw [List.append_assoc]
          rfl
        · rw [hRL, ih3]
          dsimp only
          rw [WireStateCounter.add_eq]
          dsimp only
          rw [hm1, hm2, hm3, hm4]
          simp only [List.map_cons, List.sum_cons, WireStateCounter.mk.injEq, hfi]
          omega
        · rw [hRL]
          exact List.nodup_cons.mpr ⟨hnotinR, ih11⟩
        · rw [hRL]
          intro k hk
          rcases List.mem_cons.mp hk with rfl | hk2
          · exact ⟨pin, hpi, hwn⟩
          · obtain ⟨p2, hg2, hw2⟩ := ih12 k hk2
            have hki : k ≠ i := fun he => hnotinR (he ▸ hk2)
            refine ⟨p2, ?_, hw2⟩
            dsimp only at hg2
            rw [List.get?_set_ne _ _ (Ne.symm hki)] at hg2
            exact hg2
        · rw [hRL]
          intro k hk
          rcases List.mem_cons.mp hk with rfl | hk2
          · exact ⟨{ pin with wire := some wid }, ih14 k _ hgi1 hnotinR, rfl⟩
          · exact ih13 k hk2
        · rw [hRL]
          intro j pinj hg hnot
          have hji : j ≠ i := fun he => hnot (he ▸ List.mem_cons_self _ _)
          have hjR : j ∉ b.resolvedList rest := fun hm => hnot (List.mem_cons_of_mem _ hm)
          refine ih14 j pinj ?_ hjR
          show (b.pins.set i { pin with wire := some wid }).get? j = some pinj
          rw [List.get?_set_ne _ _ (Ne.symm hji)]
          exact hg
        · rw [hRL]
          intro j pinj hg hnot
          have hji : j ≠ i := fun he => hnot (he ▸ List.mem_cons_self _ _)
          have hjR : j ∉ b.resolvedList rest := fun hm => hnot (List.mem_cons_of_mem _ hm)
          have hb1 := ih15 j pinj hg hjR
          dsimp only at hb1
          rw [List.get?_set_ne _ _ (Ne.symm hji)] at hb1
          exact hb1
      · rw [hfresh, if_pos rfl] at h
        exact absurd h (by simp)

/-- Given that every entry resolves to an existing pin, the first loop of
`add_wire` hits its `assert!` (panics) exactly when the resolved index list
has a duplicate or one of the resolved pins is already attached to a wire. -/
theorem add_wire_loop_none_iff (wid : Nat) :
    ∀ (entries : List (Nat × Nat)) (b : Board) (w : Wire),
      b.entriesValid entries →
      (Board.add_wire_loop wid b w entries = none ↔
        ¬ (b.resolvedList entries).Nodup
        ∨ ∃ k ∈ b.resolvedList entries, b.wiredAt k) := by
  intro entries
  induction entries with
  | nil =>
      intro b w _
      simp [Board.add_wire_loop, Board.resolvedList]
  | cons e rest ih =>
      intro b w hval
      obtain ⟨i, pin, hre, hpi⟩ := hval e (List.mem_cons_self _ _)
      have hplt := lt_length_of_get b.pins i pin hpi
      have hRL : b.resolvedList (e :: rest) = i :: b.resolvedList rest := by
        rw [Board.resolvedList, Board.resolvedList, List.filterMap_cons, hre]
      rw [hRL]
      simp only [Board.add_wire_loop]
      rw [hre]
      dsimp only
      rw [hpi]
      dsimp only
      rcases hfresh : pin.wire.isSome with _ | _
      · rw [if_neg Bool.false_ne_true]
        have hval1 : Board.entriesValid
            { b with pins := b.pins.set i { pin with wire := some wid } } rest := by
          intro e' he'
          obtain ⟨i', pin', hre', hpi'⟩ := hval e' (List.mem_cons_of_mem _ he')
          by_cases hii : i' = i
          · subst hii
            exact ⟨i', { pin with wire := some wid }, hre',
              by dsimp only; rw [List.get?_set_eq_of_lt _ hplt]⟩
          · exact ⟨i', pin', hre',
              by dsimp only; rw [List.get?_set_ne _ _ (Ne.symm hii)]; exact hpi'⟩
        have hRL1 : Board.resolvedList
            { b with pins := b.pins.set i { pin with wire := some wid } } rest
            = b.resolvedList rest := rfl
        rw [ih _ _ hval1, hRL1]
        have hwired1 : ∀ k,
            Board.wiredAt { b with pins := b.pins.set i { pin with wire := some wid } } k
            ↔ (k = i ∨ b.wiredAt k) := by
          intro k
          constructor
          · rintro ⟨p2, hg2, hw2⟩
            by_cases hki : k = i
            · exact Or.inl hki
            · right
              dsimp only at hg2
              rw [List.get?_set_ne _ _ (Ne.symm hki)] at hg2
              exact ⟨p2, hg2, hw2⟩
          · rintro (rfl | ⟨p2, hg2, hw2⟩)
            · exact ⟨{ pin with wire := some wid },
                by dsimp only; rw [List.get?_set_eq_of_lt _ hplt], rfl⟩
            · by_cases hki : k = i
              · subst hki
                exact ⟨{ pin with wire := some wid },
                  by dsimp only; rw [List.get?_set_eq_of_lt _ hplt], rfl⟩
              · exact ⟨p2,
                  by dsimp only; rw [List.get?_set_ne _ _ (Ne.symm hki)]; exact hg2, hw2⟩
        have hnwi : ¬ b.wiredAt i := by
          rintro ⟨p2, hg2, hw2⟩
          rw [hpi] at hg2
          injection hg2 with e2
          rw [← e2] at hw2
          rw [hfresh] at hw2
          cases hw2
        simp only [hwired1, List.nodup_cons, List.mem_cons]
        constructor
        · rintro (hnd | ⟨k, hkR, rfl | hwk⟩)
          · exact Or.inl fun h2 => hnd h2.2
          · exact Or.inl fun h2 => h2.1 hkR
          · exact Or.inr ⟨k, Or.inr hkR, hwk⟩
        · rintro (hnd | ⟨k, rfl | hkR, hwk⟩)
          · by_cases hin : i ∈ b.resolvedList rest
            · exact Or.inr ⟨i, hin, Or.inl rfl⟩
            · exact Or.inl fun h2 => hnd ⟨hin, h2⟩
          · exact absurd hwk hnwi
          · exact Or.inr ⟨k, hkR, Or.inr hwk⟩
      · rw [if_pos rfl]
        constructor
        · intro _
          exact Or.inr ⟨i, List.mem_cons_self _ _, ⟨pin, hpi, hfresh⟩⟩
        · intro _
          rfl

/-- The notification loop of `add_wire` only sets threaded `is_changed`
flags: every other board field is unchanged. -/
theorem add_wire_notify_core (ws : PinState) :
    ∀ (entries : List (Nat × Nat)) (b b' : Board) (ns : List Notification),
      Board.add_wire_notify ws b entries = some (b', ns) →
      b'.pins = b.pins ∧ b'.wires = b.wires
      ∧ b'.common_component_data = b.common_component_data
      ∧ b'.threaded_changed = b.threaded_changed
      ∧ b'.threadless_count = b.threadless_count
      ∧ b'.events = b.events
      ∧ ns = entries.map fun e => ⟨e.1, e.2, ws⟩ := by
  intro entries
  induction entries with
  | nil =>
      intro b b' ns h
      simp only [Board.add_wire_notify, Option.some.injEq, Prod.mk.injEq] at h
      obtain ⟨rfl, h2⟩ := h
      exact ⟨rfl, rfl, rfl, rfl, rfl, rfl, h2.symm⟩
  | cons e rest ih =>
      intro b b' ns h
      simp only [Board.add_wire_notify] at h
      rcases hd : b.common_component_data.get? e.1 with _ | d
      · rw [hd] at h
        exact absurd h (by simp)
      rw [hd] at h
      dsimp only at h
      rcases hb : d.is_threaded with _ | _
      · rw [hb, if_neg Bool.false_ne_true] at h
        by_cases hlt : d.index < b.threadless_count
        · rw [if_pos hlt] at h
          rcases hrec : Board.add_wire_notify ws b rest with _ | q
          · rw [hrec] at h
            exact absurd h (by simp)
          · rw [hrec] at h
            simp only [Option.some.injEq, Prod.mk.injEq] at h
            obtain ⟨rfl, rfl⟩ := h
            obtain ⟨g1, g2, g3, g4, g5, g6, g7⟩ := ih b q.1 q.2 hrec
            exact ⟨g1, g2, g3, g4, g5, g6, by rw [List.map_cons, ← g7]⟩
        · rw [if_neg hlt] at h
          exact absurd h (by simp)
      · rw [hb, if_pos rfl] at h
        by_cases hlt : d.index < b.threaded_components.length
        · rw [if_pos hlt] at h
          rcases hrec : Board.add_wire_notify ws
              { b with threaded_components := b.threaded_components.set d.index true }
              rest with _ | q
          · rw [hrec] at h
            exact absurd h (by simp)
          · rw [hrec] at h
            simp only [Option.some.injEq, Prod.mk.injEq] at h
            obtain ⟨rfl, rfl⟩ := h
            obtain ⟨g1, g2, g3, g4, g5, g6, g7⟩ := ih _ q.1 q.2 hrec
            exact ⟨g1, g2, g3, g4, g5, g6, by rw [List.map_cons, ← g7]⟩
        · rw [if_neg hlt] at h
          exact absurd h (by simp)

/-- On a valid component table the notification loop of `add_wire` succeeds
and delivers exactly one notification per entry, in order, carrying the
resolved wire state. -/
theorem add_wire_notify_spec (ws : PinState) :
    ∀ (entries : List (Nat × Nat)) (b : Board),
      Board.notifyValid b entries →
      ∃ b', Board.add_wire_notify ws b entries
          = some (b', entries.map fun e => ⟨e.1, e.2, ws⟩) := by
  intro entries
  induction entries with
  | nil =>
      intro b _
      exact ⟨b, rfl⟩
  | cons e rest ih =>
      intro b hval
      obtain ⟨d, hd, hth, hthl⟩ := hval e (List.mem_cons_self _ _)
      simp only [Board.add_wire_notify]
      rw [hd]
      dsimp only
      rcases hb : d.is_threaded with _ | _
      · rw [if_neg Bool.false_ne_true, if_pos (hthl hb)]
        obtain ⟨b', hrec⟩ := ih b fun e' he' => hval e' (List.mem_cons_of_mem _ he')
        rw [hrec]
        exact ⟨b', rfl⟩
      · rw [if_pos rfl, if_pos (hth hb)]
        obtain ⟨b', hrec⟩ := ih
          { b with threaded_components := b.threaded_components.set d.index true }
          (fun e' he' => by
            obtain ⟨d', hd', hth', hthl'⟩ := hval e' (List.mem_cons_of_mem _ he')
            refine ⟨d', hd', fun hq => ?_, hthl'⟩
            dsimp only
            rw [List.length_set]
            exact hth' hq)
        rw [hrec]
        exact ⟨b', rfl⟩

/-- Anatomy of a successful `Board::add_wire`: the new wire id is the old
wire count, the new wire holds exactly the resolved member indices with a
counter seeded by tallying their driven states, those members were fresh
and are now attached to the new wire, all driven states and untouched pins
are unchanged, and every entry's component is notified of the resolved
initial value. -/
theorem add_wire_shape {b : Board} {entries : List (Nat × Nat)} {b' : Board}
    {wid : Nat} {ns : List Notification}
    (h : b.add_wire entries = some (b', wid, ns)) :
    wid = b.wires.length
  ∧ b'.wires = b.wires
      ++ [⟨b.tally (b.resolvedList entries), b.resolvedList entries⟩]
  ∧ (∀ j, b'.outStateAt j = b.outStateAt j)
  ∧ (b.resolvedList entries).Nodup
  ∧ (∀ k ∈ b.resolvedList entries, ∃ pin, b.pins.get? k = some pin ∧ pin.wire = none)
  ∧ (∀ k ∈ b.resolvedList entries,
        ∃ pin, b'.pins.get? k = some pin ∧ pin.wire = some wid)
  ∧ (∀ j pinj, b.pins.get? j = some pinj → j ∉ b.resolvedList entries →
        b'.pins.get? j = some pinj)
  ∧ (∀ j pinj, b'.pins.get? j = some pinj → j ∉ b.resolvedList entries →
        b.pins.get? j = some pinj)
  ∧ ns = entries.map
      (fun e => ⟨e.1, e.2, (b.tally (b.resolvedList entries)).read⟩)
  ∧ b'.common_component_data = b.common_component_data
  ∧ b'.threaded_changed = b.threaded_changed
  ∧ b'.threadless_count = b.threadless_count
  ∧ b'.events = b.events := by
  rw [Board.add_wire] at h
  rcases hloop : Board.add_wire_loop b.wires.length b
      { counter := ⟨0, 0, 0, 0⟩, pins := [] } entries with _ | bw
  · rw [hloop] at h
    exact absurd h (by simp)
  rcases bw with ⟨b₁, w⟩
  rw [hloop] at h
  dsimp only at h
  rcases hnot : Board.add_wire_notify w.read
      { b₁ with wires := b₁.wires ++ [w] } entries with _ | q
  · rw [hnot] at h
    exact absurd h (by simp)
  rcases q with ⟨b₃, ns'⟩
  rw [hnot] at h
  dsimp only at h
  simp only [Option.some.injEq, Prod.mk.injEq] at h
  obtain ⟨rfl, rfl, rfl⟩ := h
  obtain ⟨ls1, ls2, ls3, ls4, ls5, ls6, ls7, ls8, ls9, ls10, ls11, ls12,
    ls13, ls14, ls15⟩ := add_wire_loop_sound b.wires.length entries b _ _ hloop
  obtain ⟨nc1, nc2, nc3, nc4, nc5, nc6, nc7⟩ :=
    add_wire_notify_core w.read entries _ _ _ hnot
  have hpins2 : w.pins = b.resolvedList entries := by
    rw [ls2]
    dsimp only
    rw [List.nil_append]
  have hcnt : w.counter = b.tally (b.resolvedList entries) := by
    rw [ls3]
    dsimp only
    simp only [Nat.zero_add]
    rfl
  have hww : w = (⟨b.tally (b.resolvedList entries), b.resolvedList entries⟩ : Wire) := by
    have heta : w = (⟨w.counter, w.pins⟩ : Wire) := rfl
    rw [heta, hcnt, hpins2]
  have hbp : b₃.pins = b₁.pins := nc1
  have hout3 : ∀ j, b₃.outStateAt j = b.outStateAt j := fun j =>
    (outStateAt_pins_congr b₁ b₃ hbp j).trans (ls10 j)
  refine ⟨rfl, ?_, hout3, ls11, ls12, ?_, ?_, ?_, ?_, nc3.trans ls5, nc4.trans ls6,
    nc5.trans ls8, nc6.trans ls9⟩
  · rw [nc2]
    show b₁.wires ++ [w] = _
    rw [ls4, hww]
  · intro k hk
    obtain ⟨pin, hg, hw⟩ := ls13 k hk
    exact ⟨pin, by rw [hbp]; exact hg, hw⟩
  · intro j pinj hg hnot2
    rw [hbp]
    exact ls14 j pinj hg hnot2
  · intro j pinj hg hnot2
    rw [hbp] at hg
    exact ls15 j pinj hg hnot2
  · rw [nc7, hww]
    rfl

/-- `add_wire` preserves the wire-engine invariant. -/
theorem inv_add_wire {b : Board} {entries : List (Nat × Nat)} {b' : Board}
    {wid : Nat} {ns : List Notification} (hInv : Board.Inv b)
    (h : b.add_wire entries = some (b', wid, ns)) : Board.Inv b' := by
  obtain ⟨hwid, hbw, hout, hnd, hfresh, hwired, huntouched, hback, -, -, -, -, -⟩ :=
    add_wire_shape h
  have hfreshne : ∀ j pinj, b.pins.get? j = some pinj → pinj.wire ≠ none →
      j ∉ b.resolvedList entries := by
    intro j pinj hg hwne hmem
    obtain ⟨pinF, hgF, hwF⟩ := hfresh j hmem
    rw [hg] at hgF
    injection hgF with e
    rw [← e] at hwF
    exact hwne hwF
  refine ⟨?_, ?_, ?_⟩
  · intro wid2 wire2 hg
    rw [hbw] at hg
    by_cases h2 : wid2 < b.wires.length
    · rw [List.get?_append h2] at hg
      obtain ⟨hnd2, hmem2⟩ := hInv.wire_mem wid2 wire2 hg
      refine ⟨hnd2, fun j hj => ?_⟩
      obtain ⟨pinj, hpj, hwj⟩ := hmem2 j hj
      have hjr : j ∉ b.resolvedList entries :=
        hfreshne j pinj hpj (by rw [hwj]; simp)
      exact ⟨pinj, huntouched j pinj hpj hjr, hwj⟩
    · rw [List.get?_append_right (Nat.le_of_not_lt h2)] at hg
      rcases hd : wid2 - b.wires.length with _ | n
      · rw [hd] at hg
        injection hg with e
        subst e
        refine ⟨hnd, fun j hj => ?_⟩
        obtain ⟨pinj, hpj, hwj⟩ := hwired j hj
        refine ⟨pinj, hpj, ?_⟩
        rw [hwj, hwid]
        have : wid2 = b.wires.length := by omega
        rw [this]
      · rw [hd] at hg
        exact absurd hg (by simp)
  · intro j pinj hg wid2 hwj
    by_cases hjR : j ∈ b.resolvedList entries
    · obtain ⟨pinX, hgX, hwX⟩ := hwired j hjR
      rw [hg] at hgX
      injection hgX with e
      rw [← e] at hwX
      rw [hwX] at hwj
      injection hwj with e2
      refine ⟨⟨b.tally (b.resolvedList entries), b.resolvedList entries⟩, ?_, hjR⟩
      rw [hbw, ← e2, hwid, List.get?_append_right (Nat.le_refl _), Nat.sub_self]
      rfl
    · have hgb : b.pins.get? j = some pinj := hback j pinj hg hjR
      obtain ⟨wireJ, hgJ, hmemJ⟩ := hInv.pin_wire j pinj hgb wid2 hwj
      have hlt : wid2 < b.wires.length := lt_length_of_get b.wires wid2 wireJ hgJ
      refine ⟨wireJ, ?_, hmemJ⟩
      rw [hbw, List.get?_append hlt]
      exact hgJ
  · intro wid2 wire2 hg
    rw [hbw] at hg
    by_cases h2 : wid2 < b.wires.length
    · rw [List.get?_append h2] at hg
      rw [hInv.counter_eq wid2 wire2 hg]
      exact tally_congr fun j _ => (hout j).symm
    · rw [List.get?_append_right (Nat.le_of_not_lt h2)] at hg
      rcases hd : wid2 - b.wires.length with _ | n
      · rw [hd] at hg
        injection hg with e
        subst e
        dsimp only
        exact tally_congr fun j _ => (hout j).symm
      · rw [hd] at hg
        exact absurd hg (by simp)

/-- C2 (counterexample): `sum(counter) == |members|` fails on the code.  On
a board whose single pin drives `Z` (the reset state of every pin),
`add_wire` succeeds and seeds the counter to all zeros — `Z` contributes no
tick — so the sum is 0 while the wire has one member. -/
theorem C2_sum_equals_members_counterexample :
    Board.add_wire
        ⟨[⟨0, some 0, none, .Z⟩], [], [⟨0, false, [0]⟩], [], [], 1, []⟩ [(0, 0)]
      = some (⟨[⟨0, some 0, some 0, .Z⟩], [⟨⟨0, 0, 0, 0⟩, [0]⟩],
          [⟨0, false, [0]⟩], [], [], 1, []⟩, 0, [⟨0, 0, PinState.Z⟩])
  ∧ WireStateCounter.total ⟨0, 0, 0, 0⟩ = 0
  ∧ ([0] : List Nat).length = 1
  ∧ (0 : Nat) ≠ 1 :=
  ⟨rfl, rfl, rfl, by decide⟩

/-- C2 (amended): for every wire, the sum of the four counter fields plus
the number of members driving `Z` equals the member count plus the number of
members driving `Error` (a `Z` driver contributes no tick, an `Error` driver
two).  This holds on every board satisfying the wire-engine invariant, which
holds on any fresh board and is preserved by `add_wire` and by every
`set_pin`. -/
theorem C2_sum_equals_members_amended :
    (∀ b : Board, Board.Fresh b → Board.Inv b)
  ∧ (∀ (b : Board) entries b' wid ns, Board.Inv b →
      b.add_wire entries = some (b', wid, ns) → Board.Inv b')
  ∧ (∀ (b : Board) i s b' ns, Board.Inv b →
      b.set_pin i s = some (b', ns) → Board.Inv b')
  ∧ (∀ b : Board, Board.Inv b → ∀ wid wire, b.wires.get? wid = some wire →
      wire.counter.total + b.countState wire.pins .Z
        = wire.pins.length + b.countState wire.pins .Error) := by
  refine ⟨fun b h => inv_fresh h,
    fun b entries b' wid ns hInv h => inv_add_wire hInv h,
    fun b i s b' ns hInv h => inv_set_pin hInv h,
    fun b hInv wid wire hg => ?_⟩
  rw [hInv.counter_eq wid wire hg]
  exact total_tally b wire.pins

/-- Witness for the amended C2: the invariant holds on a concrete fresh
one-pin board. -/
theorem C2_sum_equals_members_amended_witness :
    Board.Inv ⟨[⟨0, some 0, none, .Z⟩], [], [⟨0, false, [0]⟩], [], [], 1, []⟩ :=
  C2_sum_equals_members_amended.1 _ ⟨rfl, by decide⟩

/-- C10: each wire's counter equals the weighted tally of its members'
driven states (`Z` contributing nothing, `Error` one to `low` and one to
`high`, the four plain states one to their count), equivalently
`sum + #Z = |members| + #Error`; the invariant holds on fresh boards and is
preserved by `add_wire` and by every `set_pin`. -/
theorem C10_counter_tally_invariant :
    (∀ b : Board, Board.Fresh b → Board.Inv b)
  ∧ (∀ (b : Board) entries b' wid ns, Board.Inv b →
      b.add_wire entries = some (b', wid, ns) → Board.Inv b')
  ∧ (∀ (b : Board) i s b' ns, Board.Inv b →
      b.set_pin i s = some (b', ns) → Board.Inv b')
  ∧ (∀ b : Board, Board.Inv b → ∀ wid wire, b.wires.get? wid = some wire →
      wire.counter = b.tally wire.pins
      ∧ wire.counter.total + b.countState wire.pins .Z
          = wire.pins.length + b.countState wire.pins .Error) := by
  refine ⟨fun b h => inv_fresh h,
    fun b entries b' wid ns hInv h => inv_add_wire hInv h,
    fun b i s b' ns hInv h => inv_set_pin hInv h,
    fun b hInv wid wire hg => ⟨hInv.counter_eq wid wire hg, ?_⟩⟩
  rw [hInv.counter_eq wid wire hg]
  exact total_tally b wire.pins

/-- Witness for C10: the invariant holds on a concrete fresh two-pin board. -/
theorem C10_counter_tally_invariant_witness :
    Board.Inv ⟨[⟨0, some 0, none, .High⟩, ⟨1, some 0, none, .Low⟩], [],
      [⟨0, false, [0, 1]⟩], [], [], 1, []⟩ :=
  C10_counter_tally_invariant.1 _ ⟨rfl, by decide⟩

/-- C6 (counterexample): `add_wire` can panic although no pin in its
argument list belonged to a wire before the call — it suffices to list the
same fresh pin twice: the first iteration attaches it, the second trips the
`assert!`. -/
theorem C6_add_wire_counterexample :
    ((⟨[⟨0, some 0, none, .Z⟩], [], [⟨0, false, [0]⟩], [], [], 1, []⟩ : Board).pins.all
        fun p => p.wire == none) = true
  ∧ Board.add_wire ⟨[⟨0, some 0, none, .Z⟩], [], [⟨0, false, [0]⟩], [], [], 1, []⟩
      [(0, 0), (0, 0)] = none :=
  ⟨rfl, rfl⟩

/-- C6 (amended): provided every entry resolves to an existing pin and every
entry's component data is in bounds, `add_wire` fails fatally iff some
resolved pin already belongs to a wire **or the same pin is listed more than
once**; on success every listed pin is attached to the fresh `WireId`
(the old wire count), the wire's counter is the tally of its members'
current driven states, and the resolved initial value is delivered to every
entry's component. -/
theorem C6_add_wire_amended (b : Board) (entries : List (Nat × Nat))
    (hval : b.entriesValid entries) (hnv : b.notifyValid entries) :
    (b.add_wire entries = none ↔
      ¬ (b.resolvedList entries).Nodup
      ∨ ∃ k ∈ b.resolvedList entries, b.wiredAt k)
  ∧ (∀ b' wid ns, b.add_wire entries = some (b', wid, ns) →
      wid = b.wires.length
      ∧ b'.wires = b.wires
          ++ [⟨b.tally (b.resolvedList entries), b.resolvedList entries⟩]
      ∧ (∀ k ∈ b.resolvedList entries,
            ∃ pin, b'.pins.get? k = some pin ∧ pin.wire = some wid)
      ∧ ns = entries.map
          fun e => ⟨e.1, e.2, (b.tally (b.resolvedList entries)).read⟩) := by
  constructor
  · rw [Board.add_wire]
    rcases hloop : Board.add_wire_loop b.wires.length b
        { counter := ⟨0, 0, 0, 0⟩, pins := [] } entries with _ | bw
    · constructor
      · intro _
        exact (add_wire_loop_none_iff b.wires.length entries b _ hval).mp hloop
      · intro _
        rfl
    · rcases bw with ⟨b₁, w⟩
      obtain ⟨-, -, -, ls4, ls5, ls6, ls7, ls8, ls9, -, -, -, -, -, -⟩ :=
        add_wire_loop_sound b.wires.length entries b _ _ hloop
      have hnv2 : Board.notifyValid { b₁ with wires := b₁.wires ++ [w] } entries := by
        intro e he
        obtain ⟨d, hd, h1, h2⟩ := hnv e he
        refine ⟨d, ?_, ?_, ?_⟩
        · show b₁.common_component_data.get? e.1 = some d
          rw [ls5]
          exact hd
        · intro hq
          show d.index < b₁.threaded_components.length
          rw [ls7]
          exact h1 hq
        · intro hq
          show d.index < b₁.threadless_count
          rw [ls8]
          exact h2 hq
      obtain ⟨b₃, hnot⟩ := add_wire_notify_spec w.read entries _ hnv2
      dsimp only
      rw [hnot]
      constructor
      · intro hx
        exact absurd hx (by simp)
      · intro hrhs
        have := (add_wire_loop_none_iff b.wires.length entries b
          { counter := ⟨0, 0, 0, 0⟩, pins := [] } hval).mpr hrhs
        rw [hloop] at this
        exact absurd this (by simp)
  · intro b' wid ns h
    obtain ⟨hwid, hbw, -, -, -, hwired, -, -, hns, -, -, -, -⟩ := add_wire_shape h
    exact ⟨hwid, hbw, hwired, hns⟩

/-- Witness for the amended C6 on a concrete two-pin board: `add_wire`
succeeds and the conclusions hold at the computed result. -/
theorem C6_add_wire_amended_witness :
    (0 : Nat) = ([] : List Wire).length
  ∧ ([⟨⟨1, 1, 0, 0⟩, [0, 1]⟩] : List Wire) = []
      ++ [⟨Board.tally ⟨[⟨0, some 0, none, .High⟩, ⟨1, some 0, none, .Low⟩], [],
              [⟨0, false, [0, 1]⟩], [], [], 1, []⟩
            (Board.resolvedList ⟨[⟨0, some 0, none, .High⟩, ⟨1, some 0, none, .Low⟩], [],
              [⟨0, false, [0, 1]⟩], [], [], 1, []⟩ [(0, 0), (0, 1)]),
          Board.resolvedList ⟨[⟨0, some 0, none, .High⟩, ⟨1, some 0, none, .Low⟩], [],
              [⟨0, false, [0, 1]⟩], [], [], 1, []⟩ [(0, 0), (0, 1)]⟩]
  ∧ (∀ k ∈ Board.resolvedList ⟨[⟨0, some 0, none, .High⟩, ⟨1, some 0, none, .Low⟩], [],
        [⟨0, false, [0, 1]⟩], [], [], 1, []⟩ [(0, 0), (0, 1)],
      ∃ pin, ([⟨0, some 0, some 0, .High⟩, ⟨1, some 0, some 0, .Low⟩] : List Pin).get? k
          = some pin ∧ pin.wire = some 0)
  ∧ ([⟨0, 0, .Error⟩, ⟨0, 1, .Error⟩] : List Notification)
      = [(0, 0), (0, 1)].map fun e =>
          ⟨e.1, e.2, (Board.tally ⟨[⟨0, some 0, none, .High⟩, ⟨1, some 0, none, .Low⟩], [],
              [⟨0, false, [0, 1]⟩], [], [], 1, []⟩
            (Board.resolvedList ⟨[⟨0, some 0, none, .High⟩, ⟨1, some 0, none, .Low⟩], [],
              [⟨0, false, [0, 1]⟩], [], [], 1, []⟩ [(0, 0), (0, 1)])).read⟩ := by
  have happ := (C6_add_wire_amended
    ⟨[⟨0, some 0, none, .High⟩, ⟨1, some 0, none, .Low⟩], [],
      [⟨0, false, [0, 1]⟩], [], [], 1, []⟩
    [(0, 0), (0, 1)]
    (by
      intro e he
      simp only [List.mem_cons, List.not_mem_nil, or_false] at he
      rcases he with rfl | rfl
      · exact ⟨0, ⟨0, some 0, none, .High⟩, rfl, rfl⟩
      · exact ⟨1, ⟨1, some 0, none, .Low⟩, rfl, rfl⟩)
    (by
      intro e he
      simp only [List.mem_cons, List.not_mem_nil, or_false] at he
      rcases he with rfl | rfl
      · exact ⟨⟨0, false, [0, 1]⟩, rfl, fun hq => absurd hq Bool.false_ne_true,
          fun _ => by decide⟩
      · exact ⟨⟨0, false, [0, 1]⟩, rfl, fun hq => absurd hq Bool.false_ne_true,
          fun _ => by decide⟩)).2
    ⟨[⟨0, some 0, some 0, .High⟩, ⟨1, some 0, some 0, .Low⟩], [⟨⟨1, 1, 0, 0⟩, [0, 1]⟩],
      [⟨0, false, [0, 1]⟩], [], [], 1, []⟩ 0
    [⟨0, 0, .Error⟩, ⟨0, 1, .Error⟩] rfl
  exact happ

/-- Witness for C5 on a one-signal forest with a clear dirty flag. -/
theorem C5_vcd_quiet_step_and_single_dump_witness :
    VcdWriter.write_step
        ⟨[33], [("c", ⟨.Signal ⟨1, some "!", .SinglePin .Low, .SinglePin .Low⟩, false⟩)], 1, 1⟩
      = some ([],
        ⟨[33], [("c", ⟨.Signal ⟨1, some "!", .SinglePin .Low, .SinglePin .Low⟩, false⟩)], 2, 1⟩)
  ∧ ([] : List VcdLine).count VcdLine.dumpvarsStart = 0 := by
  have h1 := (C5_vcd_quiet_step_and_single_dump
    ⟨[33], [("c", ⟨.Signal ⟨1, some "!", .SinglePin .Low, .SinglePin .Low⟩, false⟩)], 1, 1⟩).1
    (by
      intro p hp
      simp only [List.mem_singleton] at hp
      subst hp
      rfl)
  refine ⟨h1, ?_⟩
  exact (C5_vcd_quiet_step_and_single_dump
    ⟨[33], [("c", ⟨.Signal ⟨1, some "!", .SinglePin .Low, .SinglePin .Low⟩, false⟩)], 1, 1⟩).2.2
    [] _ h1

end Amber
